import Mathlib

/-!
Shallow embedding of the goque priority queue (`pqueue.go`).

The queue keeps 256 priority levels, each with uint64 `head`/`tail`
counters, a `curLevel` cursor and a LevelDB store.  uint64 arithmetic is
modelled on `Nat` with explicit reduction modulo `2 ^ 64`; the store is
modelled as a partial map from (priority, id) keys to byte values; the
fallible storage operations (Put/Delete) take an explicit success flag.
-/

namespace Goque

/-- `2 ^ 64`, the modulus of Go's uint64 arithmetic. -/
def u64 : Nat := 2 ^ 64

/-- uint64 addition: `(a + b) mod 2^64`. -/
def add64 (a b : Nat) : Nat := (a + b) % u64

/-- uint64 subtraction `a - b` (for `a b < 2^64`): `(a + 2^64 - b) mod 2^64`. -/
def sub64 (a b : Nat) : Nat := (a + u64 - b) % u64

/-- `order` defines the priority ordering of the queue (pqueue.go line 15). -/
inductive order where
  | ASC
  | DESC
deriving DecidableEq

/-- Per-level head and tail position (pqueue.go lines 25-28). -/
structure priorityLevel where
  head : Nat
  tail : Nat
deriving DecidableEq

/-- `length()` of a priority level: uint64 `tail - head` (pqueue.go line 31). -/
def priorityLevel.length (pl : priorityLevel) : Nat := sub64 pl.tail pl.head

/-- Opaque byte payload of an item. -/
abbrev Value := List Nat

/-- A queued item: id, priority and value (the cached `Key` field is the
pair (Priority, ID) in this model). -/
structure PriorityItem where
  ID : Nat
  Priority : Fin 256
  Value : Value
deriving DecidableEq

/-- Error outcomes: `ErrEmpty`, `ErrOutOfBounds` (goque errors) and
`ErrStorage` standing for any LevelDB put/get/delete failure. -/
inductive GoqueError where
  | ErrEmpty
  | ErrOutOfBounds
  | ErrStorage
deriving DecidableEq

deriving instance DecidableEq for Except

/-- The priority queue state (pqueue.go lines 37-45): ordering mode, the
256 levels, the current-level cursor and the LevelDB contents. -/
structure PriorityQueue where
  order : order
  levels : Fin 256 → priorityLevel
  curLevel : Fin 256
  db : Fin 256 → Nat → Option Value

/-- LevelDB `Put` on a key (priority, id). -/
def dbPut (db : Fin 256 → Nat → Option Value) (p : Fin 256) (id : Nat) (v : Value) :
    Fin 256 → Nat → Option Value :=
  fun q j => if q = p ∧ j = id then some v else db q j

/-- LevelDB `Delete` on a key (priority, id). -/
def dbDel (db : Fin 256 → Nat → Option Value) (p : Fin 256) (id : Nat) :
    Fin 256 → Nat → Option Value :=
  fun q j => if q = p ∧ j = id then none else db q j

/-- `cmpAsc` (pqueue.go line 231): the given priority is more important
than the current level in ascending order. -/
def cmpAsc (pq : PriorityQueue) (priority : Fin 256) : Bool :=
  decide (pq.order = order.ASC) && decide (priority < pq.curLevel)

/-- `cmpDesc` (pqueue.go line 237): the given priority is more important
than the current level in descending order. -/
def cmpDesc (pq : PriorityQueue) (priority : Fin 256) : Bool :=
  decide (pq.order = order.DESC) && decide (pq.curLevel < priority)

/-- The reset value of the cursor: least important level of the mode. -/
def extremeLevel : order → Fin 256
  | order.ASC => 255
  | order.DESC => 0

/-- `resetCurrentLevel` (pqueue.go line 243). -/
def resetCurrentLevel (pq : PriorityQueue) : PriorityQueue :=
  { pq with curLevel := extremeLevel pq.order }

/-- `getItemByPriorityID` (pqueue.go line 331): empty / out-of-bounds
checks, then a LevelDB Get. -/
def getItemByPriorityID (pq : PriorityQueue) (priority : Fin 256) (id : Nat) :
    Except GoqueError PriorityItem :=
  if (pq.levels priority).length = 0 then .error .ErrEmpty
  else if id ≤ (pq.levels priority).head ∨ (pq.levels priority).tail < id then
    .error .ErrOutOfBounds
  else
    match pq.db priority id with
    | some v => .ok ⟨id, priority, v⟩
    | none => .error .ErrStorage

/-- One iteration of the cursor scan loop in `getNextItem`
(pqueue.go lines 314-318). -/
def scanStep (acc : PriorityQueue) (i : Fin 256) : PriorityQueue :=
  if (cmpAsc acc i || cmpDesc acc i) && decide (0 < (acc.levels i).length) then
    { acc with curLevel := i }
  else acc

/-- The cursor rescan of `getNextItem` (pqueue.go lines 310-318): reset
the cursor to the mode's extreme, then walk levels 0 → 255 keeping the
last level that is more important than the cursor and nonempty. -/
def scanCursor (pq : PriorityQueue) : PriorityQueue :=
  (List.finRange 256).foldl scanStep (resetCurrentLevel pq)

/-- `getNextItem` (pqueue.go line 307): if the current level is empty,
reset the cursor and scan all 256 levels for the next nonempty level;
then read the item at `head + 1` of the current level.  The (possibly
cursor-mutated) state is returned alongside the result. -/
def getNextItem (pq : PriorityQueue) : PriorityQueue × Except GoqueError PriorityItem :=
  if (pq.levels pq.curLevel).length = 0 then
    if ((scanCursor pq).levels (scanCursor pq).curLevel).length = 0 then
      (scanCursor pq, .error .ErrEmpty)
    else
      (scanCursor pq,
       getItemByPriorityID (scanCursor pq) (scanCursor pq).curLevel
         (add64 ((scanCursor pq).levels (scanCursor pq).curLevel).head 1))
  else (pq, getItemByPriorityID pq pq.curLevel (add64 (pq.levels pq.curLevel).head 1))

/-- `Enqueue` (pqueue.go line 82).  `putOk` tells whether the LevelDB
`Put` succeeds.  Returns the new state, the item (whose ID and key are
assigned even when the put fails, as in the source) and the error. -/
def Enqueue (pq : PriorityQueue) (putOk : Bool) (priority : Fin 256) (value : Value) :
    PriorityQueue × PriorityItem × Option GoqueError :=
  let level := pq.levels priority
  let item : PriorityItem := ⟨add64 level.tail 1, priority, value⟩
  if putOk then
    ({ pq with
        db := dbPut pq.db priority item.ID value
        levels := Function.update pq.levels priority { level with tail := add64 level.tail 1 }
        curLevel := if cmpAsc pq priority || cmpDesc pq priority then priority else pq.curLevel },
     item, none)
  else (pq, item, some .ErrStorage)

/-- `Dequeue` (pqueue.go line 108).  `delOk` tells whether the LevelDB
`Delete` succeeds.  On delete failure the located item is still returned
but the head is not advanced, exactly as in the source. -/
def Dequeue (pq : PriorityQueue) (delOk : Bool) :
    PriorityQueue × Option PriorityItem × Option GoqueError :=
  match getNextItem pq with
  | (pq1, .error e) => (pq1, none, some e)
  | (pq1, .ok item) =>
    if delOk then
      ({ pq1 with
          db := dbDel pq1.db item.Priority item.ID
          levels := Function.update pq1.levels pq1.curLevel
            { pq1.levels pq1.curLevel with
                head := add64 (pq1.levels pq1.curLevel).head 1 } },
       some item, none)
    else (pq1, some item, some .ErrStorage)

/-- `DequeueByPriority` (pqueue.go line 131). -/
def DequeueByPriority (pq : PriorityQueue) (delOk : Bool) (priority : Fin 256) :
    PriorityQueue × Option PriorityItem × Option GoqueError :=
  match getItemByPriorityID pq priority (add64 (pq.levels priority).head 1) with
  | .error e => (pq, none, some e)
  | .ok item =>
    if delOk then
      ({ pq with
          db := dbDel pq.db item.Priority item.ID
          levels := Function.update pq.levels priority
            { pq.levels priority with head := add64 (pq.levels priority).head 1 } },
       some item, none)
    else (pq, some item, some .ErrStorage)

/-- `Peek` (pqueue.go line 153): delegates to `getNextItem` (whose cursor
mutation is visible in the returned state). -/
def Peek (pq : PriorityQueue) : PriorityQueue × Except GoqueError PriorityItem :=
  getNextItem pq

/-- The shared loop body of `findOffsetAsc` / `findOffsetDesc`
(pqueue.go lines 258-273 and 285-300), with `qual i priority` standing
for the level-qualification comparison of the two directions. -/
def findOffsetGo (pq : PriorityQueue) (qual : Fin 256 → Fin 256 → Bool) (offset : Nat) :
    List (Fin 256) → Nat → Fin 256 → Except GoqueError PriorityItem
  | [], _, _ => .error .ErrOutOfBounds
  | i :: rest, length, priority =>
    if qual i priority && decide (0 < (pq.levels i).length) then
      let newLength := sub64 (pq.levels i).length 1
      if offset ≤ add64 length newLength then
        getItemByPriorityID pq i (add64 (sub64 offset length) 1)
      else findOffsetGo pq qual offset rest (add64 length (add64 newLength 1)) i
    else findOffsetGo pq qual offset rest length priority

/-- `findOffsetAsc` (pqueue.go line 253): levels are scanned 0 → 255 and
qualify when `i >= priority`. -/
def findOffsetAsc (pq : PriorityQueue) (offset : Nat) : Except GoqueError PriorityItem :=
  findOffsetGo pq (fun i priority => decide (priority ≤ i)) offset
    (List.finRange 256) 0 pq.curLevel

/-- `findOffsetDesc` (pqueue.go line 280): levels are scanned 255 → 0 and
qualify when `i <= priority`. -/
def findOffsetDesc (pq : PriorityQueue) (offset : Nat) : Except GoqueError PriorityItem :=
  findOffsetGo pq (fun i priority => decide (i ≤ priority)) offset
    (List.finRange 256).reverse 0 pq.curLevel

/-- `PeekByOffset` (pqueue.go line 161).  Note the uint64 underflow of
`length()-1` when the current level is empty, faithfully preserved. -/
def PeekByOffset (pq : PriorityQueue) (offset : Nat) : Except GoqueError PriorityItem :=
  if offset ≤ sub64 (pq.levels pq.curLevel).length 1 then
    getItemByPriorityID pq pq.curLevel
      (add64 (add64 (pq.levels pq.curLevel).head offset) 1)
  else
    match pq.order with
    | order.ASC => findOffsetAsc pq offset
    | order.DESC => findOffsetDesc pq offset

/-- `PeekByPriorityID` (pqueue.go line 181). -/
def PeekByPriorityID (pq : PriorityQueue) (priority : Fin 256) (id : Nat) :
    Except GoqueError PriorityItem :=
  getItemByPriorityID pq priority id

/-- `Update` (pqueue.go line 189): a LevelDB Put at the item's cached
key; no counter or cursor is touched. -/
def Update (pq : PriorityQueue) (putOk : Bool) (item : PriorityItem) (newValue : Value) :
    PriorityQueue × Option GoqueError :=
  if putOk then ({ pq with db := dbPut pq.db item.Priority item.ID newValue }, none)
  else (pq, some .ErrStorage)

/-- `Length` (pqueue.go line 203): uint64 sum of the 256 level lengths. -/
def Length (pq : PriorityQueue) : Nat :=
  (List.finRange 256).foldl (fun acc p => add64 acc (pq.levels p).length) 0

/-- The per-level counters computed by recovery from the (id-ordered)
list of keys found under the level's prefix (pqueue.go lines 378-396):
`head = firstId - 1`, `tail = lastId`, both 0 when the scan is empty. -/
def initLevel (l : List (Nat × Value)) : priorityLevel :=
  match l.head?, l.getLast? with
  | some f, some g => ⟨sub64 f.1 1, g.1⟩
  | _, _ => ⟨0, 0⟩

/-- The store contents as a (priority, id) partial map. -/
def dbOfStore (store : Fin 256 → List (Nat × Value)) : Fin 256 → Nat → Option Value :=
  fun p id => ((store p).find? (fun e => e.1 = id)).map (·.2)

/-- One iteration of the recovery loop of `init` (pqueue.go lines
372-404): build the level from the prefix scan and, when the scan found
a key and the level is more important than the cursor, move the cursor. -/
def initStep (store : Fin 256 → List (Nat × Value)) (acc : PriorityQueue) (i : Fin 256) :
    PriorityQueue :=
  { acc with
      levels := Function.update acc.levels i (initLevel (store i))
      curLevel :=
        if !(store i).isEmpty && (cmpAsc acc i || cmpDesc acc i) then i else acc.curLevel }

/-- `init` (pqueue.go line 367), run on a snapshot of the store: reset
the cursor, then scan the 256 level prefixes. -/
def initPQ (ord : order) (store : Fin 256 → List (Nat × Value)) : PriorityQueue :=
  (List.finRange 256).foldl (initStep store)
    (resetCurrentLevel { order := ord, levels := fun _ => ⟨0, 0⟩,
                         curLevel := extremeLevel ord, db := dbOfStore store })

/-- A freshly opened queue on an empty data directory: all counters 0,
cursor at the reset extreme, empty store. -/
def freshPQ (ord : order) : PriorityQueue :=
  { order := ord, levels := fun _ => ⟨0, 0⟩, curLevel := extremeLevel ord,
    db := fun _ _ => none }

/-- A sequence of successful `Enqueue`s applied to a fresh queue. -/
def enqueueAll (ord : order) (reqs : List (Fin 256 × Value)) : PriorityQueue :=
  reqs.foldl (fun s r => (Enqueue s true r.1 r.2).1) (freshPQ ord)

/-- The list of items produced by `fuel` successive successful
`Dequeue()` calls (stopping at the first error). -/
def drain : Nat → PriorityQueue → List PriorityItem
  | 0, _ => []
  | fuel + 1, pq =>
    match Dequeue pq true with
    | (pq1, some item, none) => item :: drain fuel pq1
    | _ => []

/-! ### Specification-side notions used in the theorem statements -/

/-- The serving order of the 256 levels: most important first
(0 → 255 in ascending mode, 255 → 0 in descending mode). -/
def servingList : order → List (Fin 256)
  | order.ASC => List.finRange 256
  | order.DESC => (List.finRange 256).reverse

/-- `moreImp ord p q`: priority `p` is strictly more important than `q`
under mode `ord`. -/
def moreImp : order → Fin 256 → Fin 256 → Prop
  | order.ASC, p, q => p < q
  | order.DESC, p, q => q < p

instance (ord : order) (p q : Fin 256) : Decidable (moreImp ord p q) := by
  unfold moreImp; cases ord <;> exact inferInstance

/-- `p` is at least as important as `q`. -/
def moreImpEq (ord : order) (p q : Fin 256) : Prop := moreImp ord p q ∨ p = q

/-- Nonemptiness of a level, as the code tests it. -/
def neB (pq : PriorityQueue) (p : Fin 256) : Bool := decide (0 < (pq.levels p).length)

/-- The most important level satisfying `ne`, or the mode's reset
extreme when none does. -/
def firstSuchLevel (ord : order) (ne : Fin 256 → Bool) : Fin 256 :=
  ((servingList ord).filter ne).head?.getD (extremeLevel ord)

/-- The cursor update of one scan-loop iteration, as a function of the
(loop-invariant) mode and level table. -/
def scanStepCur (ord : order) (lev : Fin 256 → priorityLevel) (cur i : Fin 256) : Fin 256 :=
  if (decide (ord = order.ASC) && decide (i < cur) ||
      decide (ord = order.DESC) && decide (cur < i)) && decide (0 < (lev i).length)
  then i else cur

/-- The cursor update of one recovery-loop iteration of `init`, as a
function of the fixed mode and store snapshot. -/
def initStepCur (ord : order) (store : Fin 256 → List (Nat × Value)) (cur i : Fin 256) :
    Fin 256 :=
  if !(store i).isEmpty &&
      (decide (ord = order.ASC) && decide (i < cur) ||
       decide (ord = order.DESC) && decide (cur < i))
  then i else cur

/-- A concrete store snapshot used by witnesses: level 5 holds keys with
ids 2 and 3. -/
def recWitStore : Fin 256 → List (Nat × Value) :=
  fun p => if p = 5 then [(2, [7]), (3, [8])] else []

/-- Levels strictly more important than the cursor are empty. -/
def CursorInv (pq : PriorityQueue) : Prop :=
  ∀ q, moreImp pq.order q pq.curLevel → (pq.levels q).head = (pq.levels q).tail

/-- Counter sanity: `head ≤ tail ≤ n` on every level. -/
def WFlev (n : Nat) (pq : PriorityQueue) : Prop :=
  ∀ p, (pq.levels p).head ≤ (pq.levels p).tail ∧ (pq.levels p).tail ≤ n

/-- The joint reachability invariant: counter sanity (bounded by the
number of operations so far) together with the cursor invariant. -/
def Inv (n : Nat) (pq : PriorityQueue) : Prop := WFlev n pq ∧ CursorInv pq

/-- The per-level FIFO content of the queue: `vals p` lists the values
ever enqueued at level `p`, in insertion order (ids `1, 2, …`). -/
def valsAt (reqs : List (Fin 256 × Value)) (p : Fin 256) : List Value :=
  (reqs.filter (fun r => r.1 = p)).map (·.2)

/-- The value stored under id `id` (1-based) of level `p`. -/
def valAt (vals : Fin 256 → List Value) (p : Fin 256) (id : Nat) : Value :=
  (vals p).getD (id - 1) []

/-- State invariant for the draining phase: counters are sane and below
`2^64`, the store holds exactly the ids in `(head, tail]` of each level
with their FIFO values, and no level more important than the cursor
holds items. -/
def DrainInv (pq : PriorityQueue) (vals : Fin 256 → List Value) : Prop :=
  (∀ p, (pq.levels p).head ≤ (pq.levels p).tail ∧
        (pq.levels p).tail = (vals p).length ∧ (vals p).length < u64) ∧
  (∀ p id, pq.db p id =
      if (pq.levels p).head < id ∧ id ≤ (pq.levels p).tail
      then some (valAt vals p id) else none) ∧
  CursorInv pq

/-- The pending items of level `p`: ids `head+1 … tail` with their
stored values. -/
def pending (pq : PriorityQueue) (vals : Fin 256 → List Value) (p : Fin 256) :
    List PriorityItem :=
  (List.range' ((pq.levels p).head + 1) ((pq.levels p).tail - (pq.levels p).head)).map
    (fun id => ⟨id, p, valAt vals p id⟩)

/-- All pending items of the queue, in serving order. -/
def expected (pq : PriorityQueue) (vals : Fin 256 → List Value) : List PriorityItem :=
  (servingList pq.order).flatMap (pending pq vals)

/-- Total number of pending items (mathematical, overflow-free). -/
def LengthNat (pq : PriorityQueue) : Nat :=
  ((List.finRange 256).map (fun p => (pq.levels p).tail - (pq.levels p).head)).sum

/-! ### The public-operation alphabet, for reachability claims -/

/-- One public operation, with explicit storage-success flags. -/
inductive Op where
  | enq (ok : Bool) (p : Fin 256) (v : Value)
  | deq (ok : Bool)
  | deqP (ok : Bool) (p : Fin 256)
  | peek
  | peekOff (offset : Nat)
  | peekPID (p : Fin 256) (id : Nat)
  | upd (ok : Bool) (p : Fin 256) (id : Nat) (v : Value)

/-- The state reached after one public operation.  `PeekByOffset` and
`PeekByPriorityID` perform no state write in the source, so they leave
the state unchanged; `Peek` runs `getNextItem`, whose cursor mutation is
kept. -/
def step (pq : PriorityQueue) : Op → PriorityQueue
  | .enq ok p v => (Enqueue pq ok p v).1
  | .deq ok => (Dequeue pq ok).1
  | .deqP ok p => (DequeueByPriority pq ok p).1
  | .peek => (Peek pq).1
  | .peekOff _ => pq
  | .peekPID _ _ => pq
  | .upd ok p id v => (Update pq ok ⟨id, p, []⟩ v).1

/-- The state reached from a freshly opened queue by a sequence of
public operations. -/
def opsRun (ord : order) (ops : List Op) : PriorityQueue :=
  ops.foldl step (freshPQ ord)

/-! ### Concrete states used by counterexamples and witnesses -/

/-- Ascending queue after `Enqueue(0,[1])`, `Enqueue(5,[2])`, `Dequeue()`:
the current level 0 is drained while level 5 still holds one item. -/
def peekCexPQ : PriorityQueue :=
  (Dequeue (enqueueAll order.ASC [(0, [1]), (5, [2])]) true).1

/-- Ascending queue after `Enqueue(1,[10])`, `Enqueue(2,[11])`,
`Enqueue(2,[12])`, `DequeueByPriority(2)`: level 2 has `head = 1`. -/
def offCexPQ : PriorityQueue :=
  (DequeueByPriority (enqueueAll order.ASC [(1, [10]), (2, [11]), (2, [12])]) true 2).1

/-- The level-qualification test of the offset scans, by mode: in
ascending mode level `i` qualifies when `i ≥ priority`, in descending
mode when `i ≤ priority` (pqueue.go lines 262 and 289). -/
def qualOf : order → Fin 256 → Fin 256 → Bool
  | order.ASC => fun i priority => decide (priority ≤ i)
  | order.DESC => fun i priority => decide (i ≤ priority)

/-- Ascending queue after `Enqueue(5,[20])`, `Enqueue(7,[21])`,
`Dequeue()`: the current level 5 is drained (so its `length()-1`
underflows) while level 7 still holds one item. -/
def offC4cexPQ : PriorityQueue :=
  (Dequeue (enqueueAll order.ASC [(5, [20]), (7, [21])]) true).1

/-- The FIFO values underlying `offCexPQ`: level 1 received `[10]`
(id 1), level 2 received `[11]` (id 1, already dequeued) and `[12]`
(id 2). -/
def offCexVals : Fin 256 → List Value :=
  fun p => if p = 1 then [[10]] else if p = 2 then [[11], [12]] else []

/-! ### uint64 arithmetic lemmas -/

theorem u64_pos : 0 < u64 := by unfold u64; positivity

theorem add64_eq {a b : Nat} (h : a + b < u64) : add64 a b = a + b := by
  unfold add64; exact Nat.mod_eq_of_lt h

theorem sub64_eq {a b : Nat} (hb : b ≤ a) (ha : a < u64) : sub64 a b = a - b := by
  unfold sub64
  rw [show a + u64 - b = (a - b) + u64 by omega, Nat.add_mod_right]
  exact Nat.mod_eq_of_lt (by omega)

theorem sub64_self (a : Nat) : sub64 a a = 0 := by
  unfold sub64; rw [show a + u64 - a = u64 by omega, Nat.mod_self]

theorem sub64_zero_one : sub64 0 1 = u64 - 1 := by
  unfold sub64
  rw [show 0 + u64 - 1 = u64 - 1 by omega]
  exact Nat.mod_eq_of_lt (by have := u64_pos; omega)

theorem length_eq {pl : priorityLevel} (h1 : pl.head ≤ pl.tail) (h2 : pl.tail < u64) :
    pl.length = pl.tail - pl.head :=
  sub64_eq h1 h2

theorem length_zero_of_eq {pl : priorityLevel} (h : pl.head = pl.tail) : pl.length = 0 := by
  unfold priorityLevel.length; rw [h]; exact sub64_self _

theorem length_pos {pl : priorityLevel} (h1 : pl.head ≤ pl.tail) (h2 : pl.tail < u64)
    (h3 : pl.head ≠ pl.tail) : 0 < pl.length := by
  rw [length_eq h1 h2]; omega

/-! ### Field-preservation helpers -/

theorem scanStep_fields (acc : PriorityQueue) (i : Fin 256) :
    (scanStep acc i).levels = acc.levels ∧ (scanStep acc i).db = acc.db ∧
    (scanStep acc i).order = acc.order := by
  unfold scanStep; split <;> exact ⟨rfl, rfl, rfl⟩

theorem scanFold_fields (l : List (Fin 256)) (acc : PriorityQueue) :
    ((l.foldl scanStep acc).levels = acc.levels ∧ (l.foldl scanStep acc).db = acc.db ∧
     (l.foldl scanStep acc).order = acc.order) := by
  induction l generalizing acc with
  | nil => exact ⟨rfl, rfl, rfl⟩
  | cons i rest ih =>
    have h := scanStep_fields acc i
    have h' := ih (scanStep acc i)
    simp only [List.foldl_cons]
    exact ⟨h'.1.trans h.1, h'.2.1.trans h.2.1, h'.2.2.trans h.2.2⟩

theorem scanCursor_fields (pq : PriorityQueue) :
    (scanCursor pq).levels = pq.levels ∧ (scanCursor pq).db = pq.db ∧
    (scanCursor pq).order = pq.order :=
  scanFold_fields (List.finRange 256) (resetCurrentLevel pq)

theorem getNextItem_fields (pq : PriorityQueue) :
    (getNextItem pq).1.levels = pq.levels ∧ (getNextItem pq).1.db = pq.db ∧
    (getNextItem pq).1.order = pq.order := by
  unfold getNextItem
  split
  · split <;> exact scanCursor_fields pq
  · exact ⟨rfl, rfl, rfl⟩

/-- A successful `getNextItem` leaves the state's current level nonempty
and returns exactly the item at `head + 1` of that level. -/
theorem getNextItem_ok {pq pq1 : PriorityQueue} {item : PriorityItem}
    (h : getNextItem pq = (pq1, .ok item)) :
    (pq1.levels pq1.curLevel).length ≠ 0 ∧
    getItemByPriorityID pq1 pq1.curLevel (add64 (pq1.levels pq1.curLevel).head 1) =
      .ok item := by
  unfold getNextItem at h
  split at h
  · split at h
    · simp at h
    · rename_i hne
      obtain ⟨h1, h2⟩ := Prod.mk.injEq .. ▸ h
      subst h1
      exact ⟨hne, h2⟩
  · rename_i hne
    obtain ⟨h1, h2⟩ := Prod.mk.injEq .. ▸ h
    subst h1
    exact ⟨hne, h2⟩

/-- On a state whose current level is nonempty, `getNextItem` does not
touch the state at all. -/
theorem getNextItem_of_nonempty {pq : PriorityQueue}
    (h : (pq.levels pq.curLevel).length ≠ 0) :
    getNextItem pq =
      (pq, getItemByPriorityID pq pq.curLevel (add64 (pq.levels pq.curLevel).head 1)) := by
  unfold getNextItem
  rw [if_neg h]

/-! ### C6: failed Enqueue changes nothing and the id is reassigned -/

/-- **C6.** If the storage write inside `Enqueue(priority, value)` fails,
the queue state (counters, cursor and store) is unchanged, the failed
item was assigned id `tail + 1`, and the next `Enqueue` on that level
assigns the very same id. -/
theorem C6_enqueue_put_failure (pq : PriorityQueue) (p : Fin 256) (v v' : Value) :
    (Enqueue pq false p v).1 = pq ∧
    (Enqueue pq false p v).2.1.ID = add64 (pq.levels p).tail 1 ∧
    (Enqueue (Enqueue pq false p v).1 true p v').2.1.ID = (Enqueue pq false p v).2.1.ID := by
  exact ⟨rfl, rfl, rfl⟩

/-! ### C8: Enqueue cursor preemption -/

/-- **C8.** On every successful `Enqueue`, if the inserted priority is
strictly more important than `curLevel` under the active ordering
(strictly lower value in ascending mode, strictly higher in descending
mode), the cursor moves to that priority; otherwise it is unchanged. -/
theorem C8_enqueue_preemption (pq : PriorityQueue) (p : Fin 256) (v : Value) :
    (moreImp pq.order p pq.curLevel → (Enqueue pq true p v).1.curLevel = p) ∧
    (¬ moreImp pq.order p pq.curLevel →
      (Enqueue pq true p v).1.curLevel = pq.curLevel) := by
  have hiff : (cmpAsc pq p || cmpDesc pq p) = true ↔ moreImp pq.order p pq.curLevel := by
    cases h : pq.order <;>
      simp [cmpAsc, cmpDesc, moreImp, h]
  have hcur : (Enqueue pq true p v).1.curLevel =
      if cmpAsc pq p || cmpDesc pq p then p else pq.curLevel := rfl
  constructor <;> intro hm
  · rw [hcur, if_pos (hiff.2 hm)]
  · rw [hcur, if_neg (fun hc => hm (hiff.1 hc))]

/-- Witness for C8 at a concrete input: ascending queue with cursor at 3,
enqueueing priority 1 preempts the cursor. -/
theorem C8_enqueue_preemption_witness :
    (Enqueue (enqueueAll order.ASC [(3, [7])]) true 1 [8]).1.curLevel = 1 :=
  (C8_enqueue_preemption (enqueueAll order.ASC [(3, [7])]) 1 [8]).1 (by decide)

/-! ### C5: failed delete in Dequeue gives at-least-once delivery -/

/-- **C5.** If the storage delete inside `Dequeue()` fails after the next
item has been located, the item is still returned together with the
error, no head/tail counter changes, and the next `Dequeue` locates the
identical item again. -/
theorem C5_dequeue_delete_failure (pq : PriorityQueue) (item : PriorityItem)
    (h : (getNextItem pq).2 = .ok item) :
    (Dequeue pq false).2.1 = some item ∧
    (Dequeue pq false).2.2 = some .ErrStorage ∧
    (Dequeue pq false).1.levels = pq.levels ∧
    (Dequeue (Dequeue pq false).1 true).2.1 = some item := by
  have hpair : getNextItem pq = ((getNextItem pq).1, Except.ok item) := by
    rw [← h]
  have hok := getNextItem_ok hpair
  have hfields := getNextItem_fields pq
  have hd : Dequeue pq false = ((getNextItem pq).1, some item, some .ErrStorage) := by
    unfold Dequeue
    rw [hpair]
    rfl
  have h2 : getNextItem (getNextItem pq).1 = ((getNextItem pq).1, Except.ok item) := by
    rw [getNextItem_of_nonempty hok.1, hok.2]
  refine ⟨by rw [hd], by rw [hd], by rw [hd]; exact hfields.1, ?_⟩
  rw [hd]
  show (Dequeue (getNextItem pq).1 true).2.1 = some item
  unfold Dequeue
  rw [h2]
  rfl

/-- Witness for C5 at a concrete input: a single item at level 2; the
failed dequeue returns it and so does the retry. -/
theorem C5_dequeue_delete_failure_witness :
    (Dequeue (enqueueAll order.ASC [(2, [9])]) false).2.1 = some ⟨1, 2, [9]⟩ ∧
    (Dequeue (enqueueAll order.ASC [(2, [9])]) false).2.2 = some .ErrStorage ∧
    (Dequeue (enqueueAll order.ASC [(2, [9])]) false).1.levels =
      (enqueueAll order.ASC [(2, [9])]).levels ∧
    (Dequeue (Dequeue (enqueueAll order.ASC [(2, [9])]) false).1 true).2.1 =
      some ⟨1, 2, [9]⟩ :=
  C5_dequeue_delete_failure (enqueueAll order.ASC [(2, [9])]) ⟨1, 2, [9]⟩ (by decide)

/-! ### Characterization of the cursor scan loop -/

theorem moreImp_irrefl (ord : order) (p : Fin 256) : ¬ moreImp ord p p := by
  cases ord <;> simp [moreImp]

theorem moreImp_asymm {ord : order} {p q : Fin 256} (h : moreImp ord p q) :
    ¬ moreImp ord q p := by
  cases ord <;> simp only [moreImp] at * <;> omega

theorem moreImp_trans {ord : order} {p q r : Fin 256}
    (h1 : moreImp ord p q) (h2 : moreImp ord q r) : moreImp ord p r := by
  cases ord <;> simp only [moreImp] at * <;> omega

theorem mem_servingList (ord : order) (p : Fin 256) : p ∈ servingList ord := by
  cases ord <;> simp [servingList, List.mem_finRange]

theorem servingList_pairwise (ord : order) :
    (servingList ord).Pairwise (moreImp ord) := by
  cases ord with
  | ASC => exact List.pairwise_lt_finRange 256
  | DESC =>
    refine (List.pairwise_reverse).mpr ?_
    exact (List.pairwise_lt_finRange 256).imp (fun h => h)

theorem getLast?_cons_getD {α : Type} (a c : α) (L : List α) :
    ((a :: L).getLast?).getD c = (L.getLast?).getD a := by
  cases L with
  | nil => rfl
  | cons b t =>
    rw [List.getLast?_cons_cons]
    have hs : ((b :: t).getLast?).isSome := by
      rw [List.getLast?_isSome]; exact List.cons_ne_nil b t
    obtain ⟨x, hx⟩ := Option.isSome_iff_exists.mp hs
    rw [hx]; rfl

theorem scanStep_cur (pq : PriorityQueue) (c i : Fin 256) :
    scanStep { pq with curLevel := c } i =
      { pq with curLevel := scanStepCur pq.order pq.levels c i } := by
  show (if ((decide (pq.order = order.ASC) && decide (i < c) ||
        decide (pq.order = order.DESC) && decide (c < i)) &&
        decide (0 < (pq.levels i).length)) = true
      then ({ pq with curLevel := i } : PriorityQueue)
      else { pq with curLevel := c }) =
    { pq with curLevel := scanStepCur pq.order pq.levels c i }
  unfold scanStepCur
  split
  · rfl
  · rfl

theorem scanFold_cur (l : List (Fin 256)) (pq : PriorityQueue) (c : Fin 256) :
    (l.foldl scanStep { pq with curLevel := c }) =
      { pq with curLevel := l.foldl (scanStepCur pq.order pq.levels) c } := by
  induction l generalizing c with
  | nil => rfl
  | cons i rest ih =>
    simp only [List.foldl_cons, scanStep_cur]
    exact ih (scanStepCur pq.order pq.levels c i)

theorem foldAsc_char (ne : Fin 256 → Bool) :
    ∀ (l : List (Fin 256)), l.Pairwise (· < ·) → ∀ (c : Fin 256),
    l.foldl (fun cur i => if decide (i < cur) && ne i then i else cur) c =
      ((l.filter (fun q => decide (q < c) && ne q)).head?).getD c := by
  intro l
  induction l with
  | nil => intro _ c; rfl
  | cons i rest ih =>
    intro hp c
    have hfor := (List.pairwise_cons.mp hp).1
    have hrest := (List.pairwise_cons.mp hp).2
    rw [List.foldl_cons, List.filter_cons]
    by_cases h : (decide (i < c) && ne i) = true
    · rw [if_pos h, if_pos h, ih hrest i]
      have hnil : rest.filter (fun q => decide (q < i) && ne q) = [] := by
        refine List.filter_eq_nil_iff.mpr (fun q hq => ?_)
        have : i < q := hfor q hq
        simp [Fin.lt_asymm this]
      rw [hnil]
      rfl
    · rw [if_neg h, if_neg h]
      exact ih hrest c

theorem foldDesc_char (ne : Fin 256 → Bool) :
    ∀ (l : List (Fin 256)), l.Pairwise (· < ·) → ∀ (c : Fin 256),
    l.foldl (fun cur i => if decide (cur < i) && ne i then i else cur) c =
      ((l.filter (fun q => decide (c < q) && ne q)).getLast?).getD c := by
  intro l
  induction l with
  | nil => intro _ c; rfl
  | cons i rest ih =>
    intro hp c
    have hfor := (List.pairwise_cons.mp hp).1
    have hrest := (List.pairwise_cons.mp hp).2
    rw [List.foldl_cons, List.filter_cons]
    by_cases h : (decide (c < i) && ne i) = true
    · rw [if_pos h, if_pos h, ih hrest i]
      have hci : c < i := by
        have := (Bool.and_eq_true ..).mp h
        exact of_decide_eq_true this.1
      have hcong : rest.filter (fun q => decide (i < q) && ne q) =
          rest.filter (fun q => decide (c < q) && ne q) := by
        refine List.filter_congr (fun q hq => ?_)
        have h1 : i < q := hfor q hq
        have h2 : c < q := hci.trans h1
        simp [h1, h2]
      rw [hcong, getLast?_cons_getD]
    · rw [if_neg h, if_neg h]
      exact ih hrest c

theorem filter_head_top (ne : Fin 256 → Bool) (top : Fin 256) :
    ∀ (l : List (Fin 256)), l.Pairwise (· < ·) → (∀ q ∈ l, q ≤ top) →
    ((l.filter (fun q => decide (q < top) && ne q)).head?).getD top =
      ((l.filter ne).head?).getD top := by
  intro l
  induction l with
  | nil => intro _ _; rfl
  | cons i rest ih =>
    intro hp hle
    have hfor := (List.pairwise_cons.mp hp).1
    have hrest := (List.pairwise_cons.mp hp).2
    rw [List.filter_cons, List.filter_cons]
    by_cases hne : ne i = true
    · by_cases hi : i < top
      · rw [if_pos (by simp [hi, hne]), if_pos hne]
        rfl
      · have hit : i = top := le_antisymm (hle i (List.mem_cons_self i rest))
          (not_lt.mp hi)
        have hnil : rest = [] := by
          cases rest with
          | nil => rfl
          | cons x xs =>
            exfalso
            have hx1 : i < x := hfor x (List.mem_cons_self x xs)
            have hx2 : x ≤ top := hle x (List.mem_cons_of_mem i (List.mem_cons_self x xs))
            rw [hit] at hx1
            exact absurd hx2 (not_le.mpr hx1)
        subst hnil
        subst hit
        rw [if_neg (by simp), if_pos hne]
        rfl
    · rw [if_neg (by simp [hne]), if_neg hne]
      exact ih hrest (fun q hq => hle q (List.mem_cons_of_mem i hq))

theorem filter_getLast_bot (ne : Fin 256 → Bool) (bot : Fin 256) :
    ∀ (l : List (Fin 256)), l.Pairwise (· < ·) → (∀ q ∈ l, bot ≤ q) →
    ((l.filter (fun q => decide (bot < q) && ne q)).getLast?).getD bot =
      ((l.filter ne).getLast?).getD bot := by
  intro l
  induction l with
  | nil => intro _ _; rfl
  | cons i rest ih =>
    intro hp hle
    have hfor := (List.pairwise_cons.mp hp).1
    have hrest := (List.pairwise_cons.mp hp).2
    by_cases hi : bot < i
    · have hcong : (i :: rest).filter (fun q => decide (bot < q) && ne q) =
          (i :: rest).filter ne := by
        refine List.filter_congr (fun q hq => ?_)
        rcases List.mem_cons.mp hq with h | h
        · subst h; simp [hi]
        · have : bot < q := hi.trans (hfor q h)
          simp [this]
      rw [hcong]
    · have hib : i = bot := le_antisymm (not_lt.mp hi) (hle i (List.mem_cons_self i rest))
      subst hib
      rw [List.filter_cons, List.filter_cons]
      by_cases hne : ne i = true
      · rw [if_neg (by simp), if_pos hne, getLast?_cons_getD]
        have hcong2 : rest.filter (fun q => decide (i < q) && ne q) = rest.filter ne := by
          refine List.filter_congr (fun q hq => ?_)
          simp [hfor q hq]
        rw [hcong2]
      · rw [if_neg (by simp [hne]), if_neg hne]
        exact ih hrest (fun q hq => hle q (List.mem_cons_of_mem i hq))

/-- The scan loop computes the most important nonempty level (or the
reset extreme when the queue is entirely empty). -/
theorem scanFoldCur_char (pq : PriorityQueue) :
    (List.finRange 256).foldl (scanStepCur pq.order pq.levels) (extremeLevel pq.order) =
      firstSuchLevel pq.order (neB pq) := by
  cases hord : pq.order with
  | ASC =>
    have hstep : scanStepCur order.ASC pq.levels =
        fun cur i => if decide (i < cur) && neB pq i then i else cur := by
      funext cur i
      simp [scanStepCur, neB]
    rw [hstep,
      foldAsc_char (neB pq) (List.finRange 256) (List.pairwise_lt_finRange 256)
        (extremeLevel order.ASC),
      filter_head_top (neB pq) (extremeLevel order.ASC) (List.finRange 256)
        (List.pairwise_lt_finRange 256) (fun q _ => Fin.le_last q)]
    rfl
  | DESC =>
    have hstep : scanStepCur order.DESC pq.levels =
        fun cur i => if decide (cur < i) && neB pq i then i else cur := by
      funext cur i
      simp [scanStepCur, neB]
    rw [hstep,
      foldDesc_char (neB pq) (List.finRange 256) (List.pairwise_lt_finRange 256)
        (extremeLevel order.DESC),
      filter_getLast_bot (neB pq) (extremeLevel order.DESC) (List.finRange 256)
        (List.pairwise_lt_finRange 256) (fun q _ => Fin.zero_le q)]
    show _ = ((servingList order.DESC).filter (neB pq)).head?.getD (extremeLevel order.DESC)
    show _ = (((List.finRange 256).reverse).filter (neB pq)).head?.getD (extremeLevel order.DESC)
    rw [List.filter_reverse, List.head?_reverse]

theorem scanCursor_eq (pq : PriorityQueue) :
    scanCursor pq = { pq with curLevel := firstSuchLevel pq.order (neB pq) } := by
  unfold scanCursor
  rw [show resetCurrentLevel pq = { pq with curLevel := extremeLevel pq.order } from rfl,
    scanFold_cur, scanFoldCur_char]

/-- The scan result satisfies `ne` as soon as anything does. -/
theorem neB_firstSuchLevel {ord : order} {ne : Fin 256 → Bool} (p : Fin 256)
    (hp : ne p = true) : ne (firstSuchLevel ord ne) = true := by
  unfold firstSuchLevel
  have hmem : p ∈ (servingList ord).filter ne :=
    List.mem_filter.mpr ⟨mem_servingList ord p, hp⟩
  obtain ⟨h0, t, hL⟩ := List.exists_cons_of_ne_nil (List.ne_nil_of_mem hmem)
  rw [hL]
  simp only [List.head?_cons, Option.getD_some]
  have : h0 ∈ (servingList ord).filter ne := by rw [hL]; exact List.mem_cons_self h0 t
  exact (List.mem_filter.mp this).2

theorem all_false_of_firstSuchLevel {ord : order} {ne : Fin 256 → Bool}
    (h : ne (firstSuchLevel ord ne) = false) (p : Fin 256) : ne p = false := by
  by_contra hp
  rw [neB_firstSuchLevel p (Bool.ne_false_iff.mp hp)] at h
  exact absurd h (by simp)

/-- Nothing satisfying `ne` is strictly more important than the scan
result. -/
theorem not_moreImp_firstSuchLevel {ord : order} {ne : Fin 256 → Bool} {q : Fin 256}
    (hq : ne q = true) : ¬ moreImp ord q (firstSuchLevel ord ne) := by
  unfold firstSuchLevel
  have hmem : q ∈ (servingList ord).filter ne :=
    List.mem_filter.mpr ⟨mem_servingList ord q, hq⟩
  have hpw : ((servingList ord).filter ne).Pairwise (moreImp ord) :=
    (servingList_pairwise ord).filter ne
  obtain ⟨h0, t, hL⟩ := List.exists_cons_of_ne_nil (List.ne_nil_of_mem hmem)
  rw [hL]
  simp only [List.head?_cons, Option.getD_some]
  rw [hL] at hmem hpw
  rcases List.mem_cons.mp hmem with rfl | hmemt
  · exact moreImp_irrefl ord q
  · exact moreImp_asymm ((List.pairwise_cons.mp hpw).1 q hmemt)

/-- `getItemByPriorityID` ignores the cursor. -/
theorem getItemByPriorityID_cursor (pq : PriorityQueue) (c p : Fin 256) (id : Nat) :
    getItemByPriorityID { pq with curLevel := c } p id = getItemByPriorityID pq p id := rfl

/-- When the current level is empty and the scan finds a nonempty level,
`getNextItem` moves the cursor there and reads that level's head item. -/
theorem getNextItem_empty_found {pq : PriorityQueue}
    (h : (pq.levels pq.curLevel).length = 0)
    (hf : neB pq (firstSuchLevel pq.order (neB pq)) = true) :
    getNextItem pq =
      ({ pq with curLevel := firstSuchLevel pq.order (neB pq) },
       getItemByPriorityID pq (firstSuchLevel pq.order (neB pq))
         (add64 (pq.levels (firstSuchLevel pq.order (neB pq))).head 1)) := by
  have hlen : ((scanCursor pq).levels (scanCursor pq).curLevel).length ≠ 0 := by
    rw [scanCursor_eq]
    show (pq.levels (firstSuchLevel pq.order (neB pq))).length ≠ 0
    have := of_decide_eq_true (hf : decide (0 < _) = true)
    omega
  unfold getNextItem
  rw [if_pos h, if_neg hlen, scanCursor_eq]
  rfl

/-- When the current level is empty and the whole queue is empty,
`getNextItem` fails with `ErrEmpty`, cursor left at the scan result. -/
theorem getNextItem_empty_none {pq : PriorityQueue}
    (h : (pq.levels pq.curLevel).length = 0)
    (hf : neB pq (firstSuchLevel pq.order (neB pq)) = false) :
    getNextItem pq =
      ({ pq with curLevel := firstSuchLevel pq.order (neB pq) }, .error .ErrEmpty) := by
  have hlen : ((scanCursor pq).levels (scanCursor pq).curLevel).length = 0 := by
    rw [scanCursor_eq]
    show (pq.levels (firstSuchLevel pq.order (neB pq))).length = 0
    have : ¬ (0 < (pq.levels (firstSuchLevel pq.order (neB pq))).length) :=
      of_decide_eq_false (hf : decide (0 < _) = false)
    omega
  unfold getNextItem
  rw [if_pos h, if_pos hlen, scanCursor_eq]

/-! ### C7: Peek and state mutation -/

set_option maxRecDepth 2000 in
/-- **C7 counterexample.**  In the reachable ascending state after
`Enqueue(0,[1])`, `Enqueue(5,[2])`, `Dequeue()`, the current level 0 is
empty while level 5 holds an item; `Peek()` moves the cursor from 0 to 5,
so Peek is not mutation-free as claimed. -/
theorem C7_peek_mutates_cex :
    peekCexPQ.curLevel = 0 ∧ (Peek peekCexPQ).1.curLevel = 5 := by
  have h2 : (peekCexPQ.levels peekCexPQ.curLevel).length = 0 := by decide
  have hf : firstSuchLevel peekCexPQ.order (neB peekCexPQ) = 5 := by decide
  have hne : neB peekCexPQ (firstSuchLevel peekCexPQ.order (neB peekCexPQ)) = true := by
    rw [hf]; decide
  have h3 := @getNextItem_empty_found peekCexPQ h2 hne
  have hA : peekCexPQ.curLevel = 0 := by decide
  have hpeek : Peek peekCexPQ = getNextItem peekCexPQ := rfl
  have hB : (Peek peekCexPQ).1.curLevel = 5 := by
    rw [hpeek, h3]
    exact hf
  exact And.intro hA hB

/-- **C7 amended.**  `Peek()` never changes any level's head/tail
counters nor the store, and when the current level is nonempty it
changes nothing at all; but when the current level is empty the cursor
may move (to the most important nonempty level, or to the reset extreme
on an empty queue). -/
theorem C7_peek_amended (pq : PriorityQueue) :
    (Peek pq).1.levels = pq.levels ∧ (Peek pq).1.db = pq.db ∧
    ((pq.levels pq.curLevel).length ≠ 0 → (Peek pq).1 = pq) := by
  refine ⟨(getNextItem_fields pq).1, (getNextItem_fields pq).2.1, fun h => ?_⟩
  show (getNextItem pq).1 = pq
  rw [getNextItem_of_nonempty h]

set_option maxRecDepth 2000 in
/-- Witness for the amended C7 on a concrete nonempty-current-level
state. -/
theorem C7_peek_amended_witness :
    (Peek (enqueueAll order.ASC [(3, [7])])).1 = enqueueAll order.ASC [(3, [7])] :=
  (C7_peek_amended (enqueueAll order.ASC [(3, [7])])).2.2 (by decide)

/-! ### C2: recovery -/

/-- The generic 0→255 cursor scan computes the most important level
satisfying `ne` (reset extreme when none does). -/
theorem foldCur_char (ord : order) (ne : Fin 256 → Bool) :
    (List.finRange 256).foldl
      (fun cur i =>
        if (decide (ord = order.ASC) && decide (i < cur) ||
            decide (ord = order.DESC) && decide (cur < i)) && ne i
        then i else cur)
      (extremeLevel ord) = firstSuchLevel ord ne := by
  cases ord with
  | ASC =>
    have hstep : (fun (cur i : Fin 256) =>
        if (decide (order.ASC = order.ASC) && decide (i < cur) ||
            decide (order.ASC = order.DESC) && decide (cur < i)) && ne i
        then i else cur) =
        fun cur i => if decide (i < cur) && ne i then i else cur := by
      funext cur i
      simp
    rw [hstep,
      foldAsc_char ne (List.finRange 256) (List.pairwise_lt_finRange 256)
        (extremeLevel order.ASC),
      filter_head_top ne (extremeLevel order.ASC) (List.finRange 256)
        (List.pairwise_lt_finRange 256) (fun q _ => Fin.le_last q)]
    rfl
  | DESC =>
    have hstep : (fun (cur i : Fin 256) =>
        if (decide (order.DESC = order.ASC) && decide (i < cur) ||
            decide (order.DESC = order.DESC) && decide (cur < i)) && ne i
        then i else cur) =
        fun cur i => if decide (cur < i) && ne i then i else cur := by
      funext cur i
      simp
    rw [hstep,
      foldDesc_char ne (List.finRange 256) (List.pairwise_lt_finRange 256)
        (extremeLevel order.DESC),
      filter_getLast_bot ne (extremeLevel order.DESC) (List.finRange 256)
        (List.pairwise_lt_finRange 256) (fun q _ => Fin.zero_le q)]
    show _ = (((List.finRange 256).reverse).filter ne).head?.getD (extremeLevel order.DESC)
    rw [List.filter_reverse, List.head?_reverse]

theorem initStep_split (store : Fin 256 → List (Nat × Value)) (acc : PriorityQueue)
    (i : Fin 256) :
    initStep store acc i =
      { acc with
        levels := Function.update acc.levels i (initLevel (store i))
        curLevel := initStepCur acc.order store acc.curLevel i } := rfl

theorem initFold_split (store : Fin 256 → List (Nat × Value)) :
    ∀ (l : List (Fin 256)) (acc : PriorityQueue),
    l.foldl (initStep store) acc =
      { acc with
        levels := l.foldl (fun f i => Function.update f i (initLevel (store i))) acc.levels
        curLevel := l.foldl (initStepCur acc.order store) acc.curLevel } := by
  intro l
  induction l with
  | nil => intro acc; rfl
  | cons i rest ih =>
    intro acc
    rw [List.foldl_cons, initStep_split, ih]
    rfl

theorem foldUpdate_levels (store : Fin 256 → List (Nat × Value)) :
    ∀ (l : List (Fin 256)), l.Nodup → ∀ (f : Fin 256 → priorityLevel) (p : Fin 256),
    (l.foldl (fun f i => Function.update f i (initLevel (store i))) f) p =
      if p ∈ l then initLevel (store p) else f p := by
  intro l
  induction l with
  | nil => intro _ f p; simp
  | cons i rest ih =>
    intro hnd f p
    rw [List.foldl_cons, ih (List.nodup_cons.mp hnd).2]
    by_cases hp : p ∈ rest
    · rw [if_pos hp, if_pos (List.mem_cons_of_mem i hp)]
    · rw [if_neg hp]
      by_cases hpi : p = i
      · subst hpi
        rw [Function.update_same, if_pos (List.mem_cons_self p rest)]
      · rw [Function.update_noteq hpi, if_neg (by
          intro hmem
          rcases List.mem_cons.mp hmem with h | h
          · exact hpi h
          · exact hp h)]

set_option maxRecDepth 4000 in
theorem initPQ_levels (ord : order) (store : Fin 256 → List (Nat × Value)) (p : Fin 256) :
    (initPQ ord store).levels p = initLevel (store p) := by
  unfold initPQ
  rw [initFold_split]
  show (List.finRange 256).foldl
    (fun f i => Function.update f i (initLevel (store i))) (fun _ => ⟨0, 0⟩) p = _
  rw [foldUpdate_levels store (List.finRange 256) (List.nodup_finRange 256),
    if_pos (List.mem_finRange p)]

set_option maxRecDepth 4000 in
theorem initPQ_curLevel (ord : order) (store : Fin 256 → List (Nat × Value)) :
    (initPQ ord store).curLevel = firstSuchLevel ord (fun p => !(store p).isEmpty) := by
  unfold initPQ
  rw [initFold_split]
  show (List.finRange 256).foldl (initStepCur ord store) (extremeLevel ord) = _
  have hstep : initStepCur ord store =
      fun cur i =>
        if (decide (ord = order.ASC) && decide (i < cur) ||
            decide (ord = order.DESC) && decide (cur < i)) && !(store i).isEmpty
        then i else cur := by
    funext cur i
    rw [initStepCur, Bool.and_comm]
  rw [hstep, foldCur_char]

set_option maxRecDepth 4000 in
theorem initPQ_order (ord : order) (store : Fin 256 → List (Nat × Value)) :
    (initPQ ord store).order = ord := by
  unfold initPQ
  rw [initFold_split]
  rfl

/-- **C2.** On open, for each of the 256 levels: when the prefix-bounded
scan finds keys (first id `f`, last id `g`), the counters are set to
`head = f - 1`, `tail = g`; when it finds none, both are 0.  The cursor
is set to the most important level whose scan found a key — the same
most-important-nonempty rule as the empty-current-level scan in Dequeue
(`firstSuchLevel`, proved equal to that scan in `scanFoldCur_char`). -/
theorem C2_recovery (ord : order) (store : Fin 256 → List (Nat × Value))
    (hids : ∀ p, ∀ e ∈ store p, 1 ≤ e.1 ∧ e.1 < u64) :
    (∀ p, store p = [] → (initPQ ord store).levels p = ⟨0, 0⟩) ∧
    (∀ p f g, (store p).head? = some f → (store p).getLast? = some g →
      (initPQ ord store).levels p = ⟨f.1 - 1, g.1⟩) ∧
    (initPQ ord store).curLevel = firstSuchLevel ord (fun p => !(store p).isEmpty) := by
  refine ⟨fun p hp => ?_, fun p f g hf hg => ?_, initPQ_curLevel ord store⟩
  · rw [initPQ_levels, hp]
    rfl
  · rw [initPQ_levels]
    unfold initLevel
    rw [hf, hg]
    have hmem : f ∈ store p := List.mem_of_mem_head? hf
    have hb := hids p f hmem
    show (⟨sub64 f.1 1, g.1⟩ : priorityLevel) = ⟨f.1 - 1, g.1⟩
    rw [sub64_eq hb.1 hb.2]

set_option maxRecDepth 4000 in
/-- Witness for C2 on a concrete two-key store at level 5. -/
theorem C2_recovery_witness :
    (initPQ order.ASC recWitStore).levels 5 = ⟨1, 3⟩ ∧
    (initPQ order.ASC recWitStore).curLevel = 5 :=
  ⟨(C2_recovery order.ASC recWitStore (by decide)).2.1 5 (2, [7]) (3, [8]) rfl rfl,
   ((C2_recovery order.ASC recWitStore (by decide)).2.2).trans (by decide)⟩

/-! ### C9, C10: reachability invariants -/

theorem cmp_or_iff (pq : PriorityQueue) (p : Fin 256) :
    (cmpAsc pq p || cmpDesc pq p) = true ↔ moreImp pq.order p pq.curLevel := by
  cases h : pq.order <;> simp [cmpAsc, cmpDesc, moreImp, h]

theorem WFlev_mono {n m : Nat} {pq : PriorityQueue} (h : WFlev n pq) (hnm : n ≤ m) :
    WFlev m pq :=
  fun p => ⟨(h p).1, (h p).2.trans hnm⟩

theorem head_lt_tail_of_length_ne {pl : priorityLevel} (h1 : pl.head ≤ pl.tail)
    (h2 : pl.tail < u64) (h : pl.length ≠ 0) : pl.head < pl.tail := by
  rw [length_eq h1 h2] at h
  omega

theorem getItemByPriorityID_ok {pq : PriorityQueue} {p : Fin 256} {id : Nat}
    {item : PriorityItem} (h : getItemByPriorityID pq p id = .ok item) :
    (pq.levels p).length ≠ 0 ∧ (pq.levels p).head < id ∧ id ≤ (pq.levels p).tail ∧
    pq.db p id = some item.Value ∧ item.ID = id ∧ item.Priority = p := by
  unfold getItemByPriorityID at h
  split at h
  · simp at h
  · split at h
    · simp at h
    · rename_i hlen hofb
      push_neg at hofb
      split at h
      · rename_i v hv
        obtain rfl := (Except.ok.injEq ..).mp h
        exact ⟨hlen, hofb.1, hofb.2, hv, rfl, rfl⟩
      · simp at h

theorem getNextItem_fst_cases (pq : PriorityQueue) :
    (getNextItem pq).1 = pq ∨
    (getNextItem pq).1 = { pq with curLevel := firstSuchLevel pq.order (neB pq) } := by
  unfold getNextItem
  split
  · right
    split <;> rw [scanCursor_eq]
  · left
    rfl

theorem CursorInv_getNextItem {pq : PriorityQueue}
    (hb : ∀ p, (pq.levels p).head ≤ (pq.levels p).tail ∧ (pq.levels p).tail < u64)
    (hc : CursorInv pq) : CursorInv (getNextItem pq).1 := by
  rcases getNextItem_fst_cases pq with h | h <;> rw [h]
  · exact hc
  · intro q hq
    have hq' : moreImp pq.order q (firstSuchLevel pq.order (neB pq)) := hq
    show (pq.levels q).head = (pq.levels q).tail
    by_contra hne
    have h0 : (pq.levels q).length ≠ 0 := by
      rw [length_eq (hb q).1 (hb q).2]
      have h1 := (hb q).1
      omega
    have hpos : 0 < (pq.levels q).length := Nat.pos_of_ne_zero h0
    exact @not_moreImp_firstSuchLevel pq.order (neB pq) q (decide_eq_true hpos) hq'

/-! Per-operation projection lemmas. -/

theorem Enqueue_false_fst (pq : PriorityQueue) (p : Fin 256) (v : Value) :
    (Enqueue pq false p v).1 = pq := rfl

theorem Enqueue_true_levels (pq : PriorityQueue) (p : Fin 256) (v : Value) :
    (Enqueue pq true p v).1.levels =
      Function.update pq.levels p
        { pq.levels p with tail := add64 (pq.levels p).tail 1 } := rfl

theorem Enqueue_true_curLevel (pq : PriorityQueue) (p : Fin 256) (v : Value) :
    (Enqueue pq true p v).1.curLevel =
      if cmpAsc pq p || cmpDesc pq p then p else pq.curLevel := rfl

theorem Enqueue_true_order (pq : PriorityQueue) (p : Fin 256) (v : Value) :
    (Enqueue pq true p v).1.order = pq.order := rfl

theorem Enqueue_true_db (pq : PriorityQueue) (p : Fin 256) (v : Value) :
    (Enqueue pq true p v).1.db =
      dbPut pq.db p (add64 (pq.levels p).tail 1) v := rfl

theorem Dequeue_fst_of_error {pq pq1 : PriorityQueue} {e : GoqueError} (d : Bool)
    (hgn : getNextItem pq = (pq1, .error e)) : (Dequeue pq d).1 = pq1 := by
  unfold Dequeue
  rw [hgn]

theorem Dequeue_false_fst_of_ok {pq pq1 : PriorityQueue} {item : PriorityItem}
    (hgn : getNextItem pq = (pq1, .ok item)) : (Dequeue pq false).1 = pq1 := by
  unfold Dequeue
  rw [hgn]
  rfl

theorem Dequeue_true_levels_of_ok {pq pq1 : PriorityQueue} {item : PriorityItem}
    (hgn : getNextItem pq = (pq1, .ok item)) :
    (Dequeue pq true).1.levels =
      Function.update pq1.levels pq1.curLevel
        { pq1.levels pq1.curLevel with head := add64 (pq1.levels pq1.curLevel).head 1 } := by
  unfold Dequeue
  rw [hgn]
  rfl

theorem Dequeue_true_curLevel_of_ok {pq pq1 : PriorityQueue} {item : PriorityItem}
    (hgn : getNextItem pq = (pq1, .ok item)) :
    (Dequeue pq true).1.curLevel = pq1.curLevel := by
  unfold Dequeue
  rw [hgn]
  rfl

theorem Dequeue_true_order_of_ok {pq pq1 : PriorityQueue} {item : PriorityItem}
    (hgn : getNextItem pq = (pq1, .ok item)) :
    (Dequeue pq true).1.order = pq1.order := by
  unfold Dequeue
  rw [hgn]
  rfl

theorem DequeueByPriority_fst_of_error {pq : PriorityQueue} {p : Fin 256} {e : GoqueError}
    (d : Bool) (hgi : getItemByPriorityID pq p (add64 (pq.levels p).head 1) = .error e) :
    (DequeueByPriority pq d p).1 = pq := by
  unfold DequeueByPriority
  rw [hgi]

theorem DequeueByPriority_false_fst_of_ok {pq : PriorityQueue} {p : Fin 256}
    {item : PriorityItem}
    (hgi : getItemByPriorityID pq p (add64 (pq.levels p).head 1) = .ok item) :
    (DequeueByPriority pq false p).1 = pq := by
  unfold DequeueByPriority
  rw [hgi]
  rfl

theorem DequeueByPriority_true_levels_of_ok {pq : PriorityQueue} {p : Fin 256}
    {item : PriorityItem}
    (hgi : getItemByPriorityID pq p (add64 (pq.levels p).head 1) = .ok item) :
    (DequeueByPriority pq true p).1.levels =
      Function.update pq.levels p
        { pq.levels p with head := add64 (pq.levels p).head 1 } := by
  unfold DequeueByPriority
  rw [hgi]
  rfl

theorem DequeueByPriority_true_curLevel_of_ok {pq : PriorityQueue} {p : Fin 256}
    {item : PriorityItem}
    (hgi : getItemByPriorityID pq p (add64 (pq.levels p).head 1) = .ok item) :
    (DequeueByPriority pq true p).1.curLevel = pq.curLevel := by
  unfold DequeueByPriority
  rw [hgi]
  rfl

theorem DequeueByPriority_true_order_of_ok {pq : PriorityQueue} {p : Fin 256}
    {item : PriorityItem}
    (hgi : getItemByPriorityID pq p (add64 (pq.levels p).head 1) = .ok item) :
    (DequeueByPriority pq true p).1.order = pq.order := by
  unfold DequeueByPriority
  rw [hgi]
  rfl

theorem Update_fst_levels (pq : PriorityQueue) (ok : Bool) (it : PriorityItem) (v : Value) :
    (Update pq ok it v).1.levels = pq.levels := by
  cases ok <;> rfl

theorem Update_fst_curLevel (pq : PriorityQueue) (ok : Bool) (it : PriorityItem) (v : Value) :
    (Update pq ok it v).1.curLevel = pq.curLevel := by
  cases ok <;> rfl

theorem Update_fst_order (pq : PriorityQueue) (ok : Bool) (it : PriorityItem) (v : Value) :
    (Update pq ok it v).1.order = pq.order := by
  cases ok <;> rfl

/-- One public operation preserves the invariant (with the operation
count bumped). -/
theorem Inv_step {n : Nat} {pq : PriorityQueue} (op : Op)
    (h : Inv n pq) (hn : n + 1 < u64) : Inv (n + 1) (step pq op) := by
  obtain ⟨hw, hc⟩ := h
  have hb : ∀ p, (pq.levels p).head ≤ (pq.levels p).tail ∧ (pq.levels p).tail < u64 :=
    fun p => ⟨(hw p).1, lt_of_le_of_lt (hw p).2 (by omega)⟩
  cases op with
  | enq ok p v =>
    cases ok with
    | false =>
      show Inv (n + 1) (Enqueue pq false p v).1
      rw [Enqueue_false_fst]
      exact ⟨WFlev_mono hw (by omega), hc⟩
    | true =>
      show Inv (n + 1) (Enqueue pq true p v).1
      have hadd : add64 (pq.levels p).tail 1 = (pq.levels p).tail + 1 :=
        add64_eq (by have := (hw p).2; omega)
      constructor
      · intro q
        rw [Enqueue_true_levels]
        by_cases hqp : q = p
        · subst hqp
          rw [Function.update_same, hadd]
          show (pq.levels q).head ≤ (pq.levels q).tail + 1 ∧ (pq.levels q).tail + 1 ≤ n + 1
          have h1 := (hw q).1
          have h2 := (hw q).2
          omega
        · rw [Function.update_noteq hqp]
          exact ⟨(hw q).1, (hw q).2.trans (by omega)⟩
      · intro q hq
        rw [Enqueue_true_levels]
        have hq' : moreImp pq.order q
            (if cmpAsc pq p || cmpDesc pq p then p else pq.curLevel) := by
          rw [← Enqueue_true_curLevel pq p v]
          exact hq
        by_cases hcmp : (cmpAsc pq p || cmpDesc pq p) = true
        · rw [if_pos hcmp] at hq'
          have hqp : q ≠ p := fun he => moreImp_irrefl pq.order p (he ▸ hq')
          rw [Function.update_noteq hqp]
          exact hc q (moreImp_trans hq' ((cmp_or_iff pq p).mp hcmp))
        · rw [if_neg hcmp] at hq'
          have hqp : q ≠ p := fun he => hcmp ((cmp_or_iff pq p).mpr (he ▸ hq'))
          rw [Function.update_noteq hqp]
          exact hc q hq'
  | deq ok =>
    show Inv (n + 1) (Dequeue pq ok).1
    have hfields := getNextItem_fields pq
    have hc1 : CursorInv (getNextItem pq).1 := CursorInv_getNextItem hb hc
    have hw1 : WFlev n (getNextItem pq).1 := by
      intro p
      rw [hfields.1]
      exact hw p
    rcases hgn : getNextItem pq with ⟨pq1, r⟩
    rw [hgn] at hc1 hw1 hfields
    replace hw1 : WFlev n pq1 := hw1
    replace hc1 : CursorInv pq1 := hc1
    replace hfields : pq1.levels = pq.levels ∧ pq1.db = pq.db ∧ pq1.order = pq.order :=
      hfields
    cases r with
    | error e =>
      rw [Dequeue_fst_of_error ok hgn]
      exact ⟨WFlev_mono hw1 (by omega), hc1⟩
    | ok item =>
      cases ok with
      | false =>
        rw [Dequeue_false_fst_of_ok hgn]
        exact ⟨WFlev_mono hw1 (by omega), hc1⟩
      | true =>
        have hok := getNextItem_ok hgn
        have hb1 : ∀ p, (pq1.levels p).head ≤ (pq1.levels p).tail ∧
            (pq1.levels p).tail < u64 := by
          intro p
          rw [hfields.1]
          exact hb p
        have hbc : (pq1.levels pq1.curLevel).head < (pq1.levels pq1.curLevel).tail :=
          head_lt_tail_of_length_ne (hb1 pq1.curLevel).1 (hb1 pq1.curLevel).2 hok.1
        have hadd : add64 (pq1.levels pq1.curLevel).head 1 =
            (pq1.levels pq1.curLevel).head + 1 :=
          add64_eq (by have := (hb1 pq1.curLevel).2; omega)
        constructor
        · intro q
          rw [Dequeue_true_levels_of_ok hgn]
          by_cases hqc : q = pq1.curLevel
          · subst hqc
            rw [Function.update_same, hadd]
            show (pq1.levels pq1.curLevel).head + 1 ≤ (pq1.levels pq1.curLevel).tail ∧
              (pq1.levels pq1.curLevel).tail ≤ n + 1
            have h2 := (hw1 pq1.curLevel).2
            omega
          · rw [Function.update_noteq hqc]
            exact ⟨(hw1 q).1, (hw1 q).2.trans (by omega)⟩
        · intro q hq
          rw [Dequeue_true_levels_of_ok hgn]
          have hq' : moreImp pq1.order q pq1.curLevel := by
            rw [← Dequeue_true_order_of_ok hgn, ← Dequeue_true_curLevel_of_ok hgn]
            exact hq
          have hqc : q ≠ pq1.curLevel :=
            fun he => moreImp_irrefl pq1.order pq1.curLevel (he ▸ hq')
          rw [Function.update_noteq hqc]
          exact hc1 q hq'
  | deqP ok p =>
    show Inv (n + 1) (DequeueByPriority pq ok p).1
    rcases hr : getItemByPriorityID pq p (add64 (pq.levels p).head 1) with e | item
    · rw [DequeueByPriority_fst_of_error ok hr]
      exact ⟨WFlev_mono hw (by omega), hc⟩
    · cases ok with
      | false =>
        rw [DequeueByPriority_false_fst_of_ok hr]
        exact ⟨WFlev_mono hw (by omega), hc⟩
      | true =>
        have hoks := getItemByPriorityID_ok hr
        have hbc : (pq.levels p).head < (pq.levels p).tail :=
          head_lt_tail_of_length_ne (hb p).1 (hb p).2 hoks.1
        have hadd : add64 (pq.levels p).head 1 = (pq.levels p).head + 1 :=
          add64_eq (by have := (hb p).2; omega)
        constructor
        · intro q
          rw [DequeueByPriority_true_levels_of_ok hr]
          by_cases hqp : q = p
          · subst hqp
            rw [Function.update_same, hadd]
            show (pq.levels q).head + 1 ≤ (pq.levels q).tail ∧
              (pq.levels q).tail ≤ n + 1
            have h2 := (hw q).2
            omega
          · rw [Function.update_noteq hqp]
            exact ⟨(hw q).1, (hw q).2.trans (by omega)⟩
        · intro q hq
          rw [DequeueByPriority_true_levels_of_ok hr]
          have hq' : moreImp pq.order q pq.curLevel := by
            rw [← DequeueByPriority_true_order_of_ok hr,
              ← DequeueByPriority_true_curLevel_of_ok hr]
            exact hq
          have hqp : q ≠ p := by
            intro he
            subst he
            exact absurd (hc q hq') (by omega)
          rw [Function.update_noteq hqp]
          exact hc q hq'
  | peek =>
    show Inv (n + 1) (getNextItem pq).1
    have hw1 : WFlev n (getNextItem pq).1 := by
      intro p
      rw [(getNextItem_fields pq).1]
      exact hw p
    exact ⟨WFlev_mono hw1 (by omega), CursorInv_getNextItem hb hc⟩
  | peekOff o =>
    exact ⟨WFlev_mono hw (by omega), hc⟩
  | peekPID p id =>
    exact ⟨WFlev_mono hw (by omega), hc⟩
  | upd ok p id v =>
    show Inv (n + 1) (Update pq ok ⟨id, p, []⟩ v).1
    constructor
    · intro q
      rw [Update_fst_levels]
      exact ⟨(hw q).1, (hw q).2.trans (by omega)⟩
    · intro q hq
      rw [Update_fst_levels]
      refine hc q ?_
      rw [← Update_fst_order pq ok ⟨id, p, []⟩ v, ← Update_fst_curLevel pq ok ⟨id, p, []⟩ v]
      exact hq

theorem Inv_fresh (ord : order) : Inv 0 (freshPQ ord) := by
  constructor
  · intro p
    exact ⟨le_refl 0, le_refl 0⟩
  · intro q _
    rfl

theorem Inv_run : ∀ (ops : List Op) (pq : PriorityQueue) (n : Nat),
    Inv n pq → n + ops.length < u64 → Inv (n + ops.length) (ops.foldl step pq) := by
  intro ops
  induction ops with
  | nil => intro pq n h _; exact h
  | cons op rest ih =>
    intro pq n h hlt
    rw [List.foldl_cons]
    have h1 : Inv (n + 1) (step pq op) := Inv_step op h (by simp at hlt; omega)
    have h2 := ih (step pq op) (n + 1) h1 (by simp at hlt ⊢; omega)
    rw [show n + (op :: rest).length = (n + 1) + rest.length by simp; omega]
    exact h2

theorem Inv_opsRun (ord : order) (ops : List Op) (h : ops.length < u64) :
    Inv ops.length (opsRun ord ops) := by
  have := Inv_run ops (freshPQ ord) 0 (Inv_fresh ord) (by omega)
  simpa using this

theorem step_order (pq : PriorityQueue) (op : Op) : (step pq op).order = pq.order := by
  cases op with
  | enq ok p v =>
    cases ok with
    | false => rfl
    | true => exact Enqueue_true_order pq p v
  | deq ok =>
    show (Dequeue pq ok).1.order = pq.order
    rcases hgn : getNextItem pq with ⟨pq1, r⟩
    have hfields := getNextItem_fields pq
    rw [hgn] at hfields
    cases r with
    | error e => rw [Dequeue_fst_of_error ok hgn]; exact hfields.2.2
    | ok item =>
      cases ok with
      | false => rw [Dequeue_false_fst_of_ok hgn]; exact hfields.2.2
      | true => rw [Dequeue_true_order_of_ok hgn]; exact hfields.2.2
  | deqP ok p =>
    show (DequeueByPriority pq ok p).1.order = pq.order
    rcases hr : getItemByPriorityID pq p (add64 (pq.levels p).head 1) with e | item
    · rw [DequeueByPriority_fst_of_error ok hr]
    · cases ok with
      | false => rw [DequeueByPriority_false_fst_of_ok hr]
      | true => exact DequeueByPriority_true_order_of_ok hr
  | peek => exact (getNextItem_fields pq).2.2
  | peekOff o => rfl
  | peekPID p id => rfl
  | upd ok p id v => exact Update_fst_order pq ok ⟨id, p, []⟩ v

theorem opsRun_order (ord : order) (ops : List Op) : (opsRun ord ops).order = ord := by
  unfold opsRun
  have : ∀ (l : List Op) (pq : PriorityQueue), (l.foldl step pq).order = pq.order := by
    intro l
    induction l with
    | nil => intro pq; rfl
    | cons op rest ih =>
      intro pq
      rw [List.foldl_cons, ih (step pq op), step_order]
  rw [this]
  rfl

/-- **C9.** In every state reachable from a freshly opened queue by a
sequence of public operations (shorter than `2^64`, so that the uint64
counters cannot wrap), every level satisfies `head ≤ tail`. -/
theorem C9_head_le_tail (ord : order) (ops : List Op) (h : ops.length < u64)
    (p : Fin 256) :
    ((opsRun ord ops).levels p).head ≤ ((opsRun ord ops).levels p).tail :=
  ((Inv_opsRun ord ops h).1 p).1

/-- Witness for C9 on a concrete operation sequence. -/
theorem C9_head_le_tail_witness :
    ((opsRun order.ASC [Op.enq true 3 [1], Op.enq true 3 [2], Op.deqP true 3,
        Op.upd true 3 1 [9]]).levels 3).head ≤
      ((opsRun order.ASC [Op.enq true 3 [1], Op.enq true 3 [2], Op.deqP true 3,
        Op.upd true 3 1 [9]]).levels 3).tail :=
  C9_head_le_tail order.ASC _ (by decide) 3

/-- **C10.** In every reachable state, every level strictly more
important than the cursor under the active mode is empty
(`head = tail`, hence `length() = 0`). -/
theorem C10_more_important_empty (ord : order) (ops : List Op) (h : ops.length < u64)
    (q : Fin 256) (hq : moreImp ord q (opsRun ord ops).curLevel) :
    ((opsRun ord ops).levels q).head = ((opsRun ord ops).levels q).tail ∧
    ((opsRun ord ops).levels q).length = 0 := by
  have hq' : moreImp (opsRun ord ops).order q (opsRun ord ops).curLevel := by
    rw [opsRun_order]
    exact hq
  have he := (Inv_opsRun ord ops h).2 q hq'
  exact ⟨he, length_zero_of_eq he⟩

/-- Witness for C10 on a concrete operation sequence: cursor at level 3,
level 1 (more important, ascending) is empty. -/
theorem C10_more_important_empty_witness :
    ((opsRun order.ASC [Op.enq true 3 [1], Op.enq true 7 [2]]).levels 1).head =
      ((opsRun order.ASC [Op.enq true 3 [1], Op.enq true 7 [2]]).levels 1).tail ∧
    ((opsRun order.ASC [Op.enq true 3 [1], Op.enq true 7 [2]]).levels 1).length = 0 :=
  C10_more_important_empty order.ASC _ (by decide) 1 (by decide)

/-! ### C1: pending-item bookkeeping -/

theorem pairwise_split {α : Type} {R : α → α → Prop} :
    ∀ (l : List α) (p : α), l.Pairwise R → p ∈ l →
    ∃ L1 L2, l = L1 ++ p :: L2 ∧ (∀ q ∈ L1, R q p) ∧ (∀ q ∈ L2, R p q) := by
  intro l
  induction l with
  | nil => intro p _ hp; exact absurd hp (List.not_mem_nil p)
  | cons a rest ih =>
    intro p hpw hp
    rcases List.mem_cons.mp hp with rfl | hmem
    · exact ⟨[], rest, rfl, by simp, fun q hq => (List.pairwise_cons.mp hpw).1 q hq⟩
    · obtain ⟨L1, L2, hsplit, h1, h2⟩ := ih p (List.pairwise_cons.mp hpw).2 hmem
      refine ⟨a :: L1, L2, by rw [hsplit]; rfl, ?_, h2⟩
      intro q hq
      rcases List.mem_cons.mp hq with rfl | hq'
      · exact (List.pairwise_cons.mp hpw).1 p hmem
      · exact h1 q hq'

theorem pending_priority {pq : PriorityQueue} {vals : Fin 256 → List Value} {p : Fin 256} :
    ∀ it ∈ pending pq vals p, it.Priority = p := by
  intro it hit
  obtain ⟨id, _, rfl⟩ := List.mem_map.mp hit
  rfl

theorem pending_congr {pq pq' : PriorityQueue} {vals : Fin 256 → List Value} {p : Fin 256}
    (h : pq'.levels p = pq.levels p) : pending pq' vals p = pending pq vals p := by
  unfold pending
  rw [h]

theorem pending_nil_of_empty {pq : PriorityQueue} {vals : Fin 256 → List Value} {p : Fin 256}
    (h : (pq.levels p).head = (pq.levels p).tail) : pending pq vals p = [] := by
  unfold pending
  rw [← h, Nat.sub_self]
  rfl

theorem pending_length (pq : PriorityQueue) (vals : Fin 256 → List Value) (p : Fin 256) :
    (pending pq vals p).length = (pq.levels p).tail - (pq.levels p).head := by
  unfold pending
  rw [List.length_map, List.length_range' _ 1 _]

theorem flatMap_pending_pairwise (pq : PriorityQueue) (vals : Fin 256 → List Value) :
    ∀ (L : List (Fin 256)), L.Pairwise (moreImp pq.order) →
    (L.flatMap (pending pq vals)).Pairwise
      (fun a b => moreImpEq pq.order a.Priority b.Priority) := by
  intro L
  induction L with
  | nil => intro _; exact List.Pairwise.nil
  | cons q rest ih =>
    intro hpw
    rw [List.flatMap_cons]
    refine (List.pairwise_append).mpr ⟨?_, ih (List.pairwise_cons.mp hpw).2, ?_⟩
    · refine List.pairwise_of_forall_mem_list (fun a ha b hb => ?_)
      rw [pending_priority a ha, pending_priority b hb]
      exact Or.inr rfl
    · intro a ha b hb
      obtain ⟨q', hq', hbq'⟩ := List.mem_flatMap.mp hb
      rw [pending_priority a ha, pending_priority b hbq']
      exact Or.inl ((List.pairwise_cons.mp hpw).1 q' hq')

/-- The dequeue sequence predicted from a state is ordered by
importance. -/
theorem expected_pairwise (pq : PriorityQueue) (vals : Fin 256 → List Value) :
    (expected pq vals).Pairwise (fun a b => moreImpEq pq.order a.Priority b.Priority) :=
  flatMap_pending_pairwise pq vals (servingList pq.order) (servingList_pairwise pq.order)

theorem filter_flatMap_not_mem (pq : PriorityQueue) (vals : Fin 256 → List Value)
    (p : Fin 256) (L : List (Fin 256)) (hp : p ∉ L) :
    ((L.flatMap (pending pq vals)).filter (fun it => decide (it.Priority = p))) = [] := by
  refine List.filter_eq_nil_iff.mpr (fun it hit => ?_)
  obtain ⟨q, hqL, hitq⟩ := List.mem_flatMap.mp hit
  rw [pending_priority it hitq]
  simp only [decide_eq_true_eq]
  intro he
  exact hp (he ▸ hqL)

theorem filter_flatMap_self (pq : PriorityQueue) (vals : Fin 256 → List Value) (p : Fin 256) :
    ∀ (L : List (Fin 256)), L.Nodup → p ∈ L →
    ((L.flatMap (pending pq vals)).filter (fun it => decide (it.Priority = p))) =
      pending pq vals p := by
  intro L
  induction L with
  | nil => intro _ h; cases h
  | cons q rest ih =>
    intro hnd hp
    rw [List.flatMap_cons, List.filter_append]
    rcases List.mem_cons.mp hp with rfl | hmem
    · rw [filter_flatMap_not_mem pq vals p rest (List.nodup_cons.mp hnd).1,
        List.filter_eq_self.mpr (fun it hit => by rw [pending_priority it hit]; simp),
        List.append_nil]
    · have hqp : q ≠ p := fun he => (List.nodup_cons.mp hnd).1 (he ▸ hmem)
      rw [show (pending pq vals q).filter (fun it => decide (it.Priority = p)) = [] from
          List.filter_eq_nil_iff.mpr (fun it hit => by
            rw [pending_priority it hit]
            simp only [decide_eq_true_eq]
            exact hqp),
        List.nil_append, ih (List.nodup_cons.mp hnd).2 hmem]

theorem servingList_nodup (ord : order) : (servingList ord).Nodup := by
  cases ord with
  | ASC => exact List.nodup_finRange 256
  | DESC => exact (List.nodup_reverse).mpr (List.nodup_finRange 256)

/-- Filtering the expectation at one priority yields that level's
pending block. -/
theorem expected_filter (pq : PriorityQueue) (vals : Fin 256 → List Value) (p : Fin 256) :
    ((expected pq vals).filter (fun it => decide (it.Priority = p))) = pending pq vals p :=
  filter_flatMap_self pq vals p (servingList pq.order) (servingList_nodup pq.order)
    (mem_servingList pq.order p)

theorem map_getD_range : ∀ (l : List Value) (d : Value),
    (List.range l.length).map (fun j => l.getD j d) = l := by
  intro l
  induction l with
  | nil => intro d; rfl
  | cons v t ih =>
    intro d
    rw [show (v :: t).length = t.length + 1 from rfl, List.range_succ_eq_map, List.map_cons,
      List.map_map]
    rw [show ((fun j => (v :: t).getD j d) ∘ (· + 1)) = fun j => t.getD j d from
      funext (fun j => by simp)]
    rw [ih]
    rfl

/-- The pending block of an untouched level lists exactly its FIFO
values, in order. -/
theorem pending_values {pq : PriorityQueue} {vals : Fin 256 → List Value} {p : Fin 256}
    (hhead : (pq.levels p).head = 0)
    (htail : (pq.levels p).tail = (vals p).length) :
    (pending pq vals p).map (·.Value) = vals p := by
  unfold pending
  rw [hhead, htail, Nat.sub_zero, List.map_map, List.range'_eq_map_range 1 (vals p).length,
    List.map_map]
  rw [show (((·.Value) ∘ fun id => (⟨id, p, valAt vals p id⟩ : PriorityItem)) ∘ (1 + ·)) =
      fun j => (vals p).getD j [] from funext (fun j => by
    show valAt vals p (1 + j) = (vals p).getD j []
    unfold valAt
    congr 1
    omega)]
  exact map_getD_range (vals p) []

theorem expected_length (pq : PriorityQueue) (vals : Fin 256 → List Value) :
    (expected pq vals).length = LengthNat pq := by
  unfold expected LengthNat
  rw [List.length_flatMap]
  have hmap : ∀ (L : List (Fin 256)),
      L.map (List.length ∘ pending pq vals) =
        L.map (fun p => (pq.levels p).tail - (pq.levels p).head) := by
    intro L
    refine List.map_congr_left (fun p _ => ?_)
    exact pending_length pq vals p
  cases hord : pq.order with
  | ASC =>
    show ((List.finRange 256).map (List.length ∘ pending pq vals)).sum = _
    rw [hmap]
  | DESC =>
    show (((List.finRange 256).reverse).map (List.length ∘ pending pq vals)).sum = _
    rw [hmap, List.map_reverse, List.sum_reverse]

theorem DrainInv_bounds {pq : PriorityQueue} {vals : Fin 256 → List Value}
    (h : DrainInv pq vals) :
    ∀ p, (pq.levels p).head ≤ (pq.levels p).tail ∧ (pq.levels p).tail < u64 := by
  intro p
  refine ⟨(h.1 p).1, ?_⟩
  rw [(h.1 p).2.1]
  exact (h.1 p).2.2

theorem neB_true_iff {pq : PriorityQueue} {p : Fin 256}
    (h1 : (pq.levels p).head ≤ (pq.levels p).tail) (h2 : (pq.levels p).tail < u64) :
    neB pq p = true ↔ (pq.levels p).head < (pq.levels p).tail := by
  unfold neB
  rw [decide_eq_true_iff, length_eq h1 h2]
  omega

/-- One successful `Dequeue` on an invariant-holding nonempty queue:
shared core for both the direct and the rescan path of `getNextItem`. -/
theorem dequeue_common {pq pq1 : PriorityQueue} {vals : Fin 256 → List Value}
    (pstar : Fin 256)
    (hwb : ∀ p, (pq.levels p).head ≤ (pq.levels p).tail ∧
        (pq.levels p).tail = (vals p).length ∧ (vals p).length < u64)
    (hdb : ∀ p id, pq.db p id =
        if (pq.levels p).head < id ∧ id ≤ (pq.levels p).tail
        then some (valAt vals p id) else none)
    (hpq1 : pq1 = { pq with curLevel := pstar })
    (hgn : getNextItem pq =
      (pq1, getItemByPriorityID pq pstar (add64 (pq.levels pstar).head 1)))
    (hplt : (pq.levels pstar).head < (pq.levels pstar).tail)
    (hmi : ∀ q, moreImp pq.order q pstar → (pq.levels q).head = (pq.levels q).tail) :
    ∃ pq' item, Dequeue pq true = (pq', some item, none) ∧ DrainInv pq' vals ∧
      expected pq vals = item :: expected pq' vals ∧ pq'.order = pq.order := by
  have htb : (pq.levels pstar).tail < u64 := by
    rw [(hwb pstar).2.1]
    exact (hwb pstar).2.2
  have hadd : add64 (pq.levels pstar).head 1 = (pq.levels pstar).head + 1 :=
    add64_eq (by omega)
  have hlen : (pq.levels pstar).length ≠ 0 := by
    rw [length_eq (hwb pstar).1 htb]
    omega
  set hd1 := (pq.levels pstar).head + 1 with hhd1
  have hitem : getItemByPriorityID pq pstar (add64 (pq.levels pstar).head 1) =
      .ok ⟨hd1, pstar, valAt vals pstar hd1⟩ := by
    unfold getItemByPriorityID
    rw [if_neg hlen, hadd,
      if_neg (by
        push_neg
        constructor
        · omega
        · omega),
      hdb pstar hd1, if_pos (by omega)]
  set pqNew : PriorityQueue :=
    { pq with
        curLevel := pstar
        db := dbDel pq.db pstar hd1
        levels := Function.update pq.levels pstar
          { pq.levels pstar with head := hd1 } } with hpqNew
  have hDq : Dequeue pq true = (pqNew, some ⟨hd1, pstar, valAt vals pstar hd1⟩, none) := by
    unfold Dequeue
    rw [hgn, hitem, hpq1]
    show ({ pq with
              curLevel := pstar,
              db := dbDel pq.db pstar hd1,
              levels := Function.update pq.levels pstar
                { pq.levels pstar with head := add64 (pq.levels pstar).head 1 } },
          some (⟨hd1, pstar, valAt vals pstar hd1⟩ : PriorityItem), none) =
        (pqNew, some (⟨hd1, pstar, valAt vals pstar hd1⟩ : PriorityItem), none)
    rw [hadd]
  have hNlev : pqNew.levels =
      Function.update pq.levels pstar { pq.levels pstar with head := hd1 } := rfl
  have hNdb : pqNew.db = dbDel pq.db pstar hd1 := rfl
  refine ⟨pqNew, ⟨hd1, pstar, valAt vals pstar hd1⟩, hDq, ?_, ?_, rfl⟩
  · -- DrainInv pqNew vals
    refine ⟨?_, ?_, ?_⟩
    · intro q
      rw [hNlev]
      by_cases hq : q = pstar
      · subst hq
        rw [Function.update_same]
        refine ⟨?_, (hwb q).2.1, (hwb q).2.2⟩
        show hd1 ≤ (pq.levels q).tail
        omega
      · rw [Function.update_noteq hq]
        exact hwb q
    · intro q id
      rw [hNdb, hNlev]
      unfold dbDel
      by_cases hq : q = pstar
      · subst hq
        rw [Function.update_same]
        by_cases hid : id = hd1
        · subst hid
          rw [if_pos ⟨rfl, rfl⟩, if_neg (show ¬ (hd1 < hd1 ∧ hd1 ≤ (pq.levels q).tail) by
              omega)]
        · rw [if_neg (fun hh => hid hh.2), hdb q id]
          show (if (pq.levels q).head < id ∧ id ≤ (pq.levels q).tail then _ else _) =
            (if hd1 < id ∧ id ≤ (pq.levels q).tail then _ else _)
          have hcond : ((pq.levels q).head < id ∧ id ≤ (pq.levels q).tail) ↔
              (hd1 < id ∧ id ≤ (pq.levels q).tail) := by omega
          rw [if_congr hcond rfl rfl]
      · rw [if_neg (fun hh => hq hh.1), Function.update_noteq hq, hdb q id]
    · intro q hq
      have hq0 : moreImp pq.order q pstar := hq
      have hqp : q ≠ pstar := fun he => moreImp_irrefl pq.order pstar (he ▸ hq0)
      show (pqNew.levels q).head = (pqNew.levels q).tail
      rw [hNlev, Function.update_noteq hqp]
      exact hmi q hq0
  · -- expected pq vals = item :: expected pqNew vals
    obtain ⟨L1, L2, hsplit, hL1, hL2⟩ :=
      pairwise_split (servingList pq.order) pstar (servingList_pairwise pq.order)
        (mem_servingList pq.order pstar)
    have hflatL1 : L1.flatMap (pending pq vals) = [] :=
      List.flatMap_eq_nil_iff.mpr (fun q hq => pending_nil_of_empty (hmi q (hL1 q hq)))
    have hflatL1n : L1.flatMap (pending pqNew vals) = [] := by
      refine List.flatMap_eq_nil_iff.mpr (fun q hq => ?_)
      have hqp : q ≠ pstar := fun he => moreImp_irrefl pq.order pstar (he ▸ hL1 q hq)
      rw [pending_congr (show pqNew.levels q = pq.levels q by
        rw [hNlev, Function.update_noteq hqp])]
      exact pending_nil_of_empty (hmi q (hL1 q hq))
    have hflatL2 : L2.flatMap (pending pqNew vals) = L2.flatMap (pending pq vals) := by
      refine List.flatMap_congr (fun q hq => ?_)
      have hqp : q ≠ pstar := fun he => moreImp_irrefl pq.order q (he ▸ hL2 q hq)
      exact pending_congr (by rw [hNlev, Function.update_noteq hqp])
    have hplev : pqNew.levels pstar = { pq.levels pstar with head := hd1 } := by
      rw [hNlev, Function.update_same]
    have hpsplit : pending pq vals pstar =
        (⟨hd1, pstar, valAt vals pstar hd1⟩ : PriorityItem) :: pending pqNew vals pstar := by
      unfold pending
      rw [hplev]
      show (List.range' ((pq.levels pstar).head + 1)
          ((pq.levels pstar).tail - (pq.levels pstar).head)).map
          (fun id => (⟨id, pstar, valAt vals pstar id⟩ : PriorityItem)) =
        _ :: (List.range' (hd1 + 1) ((pq.levels pstar).tail - hd1)).map
          (fun id => (⟨id, pstar, valAt vals pstar id⟩ : PriorityItem))
      rw [show (pq.levels pstar).tail - (pq.levels pstar).head =
          ((pq.levels pstar).tail - hd1) + 1 by omega,
        List.range'_succ _ _ 1, List.map_cons]
    show expected pq vals = _ :: expected pqNew vals
    unfold expected
    rw [show pqNew.order = pq.order from rfl, hsplit, List.flatMap_append,
      List.flatMap_append, List.flatMap_cons, List.flatMap_cons, hflatL1, hflatL1n,
      hflatL2, hpsplit]
    rfl

/-- A successful `Dequeue` on an invariant-holding state with pending
items removes exactly the head of the expected sequence. -/
theorem DrainInv_dequeue_step {pq : PriorityQueue} {vals : Fin 256 → List Value}
    (hinv : DrainInv pq vals) (hne : expected pq vals ≠ []) :
    ∃ pq' item, Dequeue pq true = (pq', some item, none) ∧ DrainInv pq' vals ∧
      expected pq vals = item :: expected pq' vals ∧ pq'.order = pq.order := by
  obtain ⟨hwb, hdb, hcur⟩ := hinv
  have hb : ∀ p, (pq.levels p).head ≤ (pq.levels p).tail ∧ (pq.levels p).tail < u64 :=
    fun p => ⟨(hwb p).1, by rw [(hwb p).2.1]; exact (hwb p).2.2⟩
  by_cases hcase : (pq.levels pq.curLevel).length = 0
  · have hex : ∃ q, neB pq q = true := by
      by_contra hall
      push_neg at hall
      apply hne
      unfold expected
      refine List.flatMap_eq_nil_iff.mpr (fun q _ => ?_)
      refine pending_nil_of_empty ?_
      have h0 : neB pq q = false := (Bool.not_eq_true _).mp (hall q)
      have hlen0 : ¬ (0 < (pq.levels q).length) := of_decide_eq_false h0
      rw [length_eq (hb q).1 (hb q).2] at hlen0
      have := (hb q).1
      omega
    obtain ⟨q0, hq0⟩ := hex
    have hnef : neB pq (firstSuchLevel pq.order (neB pq)) = true := neB_firstSuchLevel q0 hq0
    have hgn := getNextItem_empty_found hcase hnef
    refine dequeue_common (firstSuchLevel pq.order (neB pq)) hwb hdb rfl hgn ?_ ?_
    · exact (neB_true_iff (hb _).1 (hb _).2).mp hnef
    · intro q hq
      by_contra hne2
      have hq1 : neB pq q = true := by
        rw [neB_true_iff (hb q).1 (hb q).2]
        have := (hb q).1
        omega
      exact not_moreImp_firstSuchLevel hq1 hq
  · have hgn := getNextItem_of_nonempty hcase
    refine dequeue_common pq.curLevel hwb hdb rfl hgn ?_ ?_
    · exact head_lt_tail_of_length_ne (hb _).1 (hb _).2 hcase
    · exact hcur

theorem expected_nil_levels {pq : PriorityQueue} {vals : Fin 256 → List Value}
    (hinv : DrainInv pq vals) (h : expected pq vals = []) :
    ∀ q, (pq.levels q).head = (pq.levels q).tail := by
  intro q
  have hq := List.flatMap_eq_nil_iff.mp h q (mem_servingList pq.order q)
  have hlen : (pending pq vals q).length = 0 := by rw [hq]; rfl
  rw [pending_length] at hlen
  have := (hinv.1 q).1
  omega

theorem dequeue_fails_of_expected_nil {pq : PriorityQueue} {vals : Fin 256 → List Value}
    (hinv : DrainInv pq vals) (h : expected pq vals = []) :
    Dequeue pq true = ({ pq with curLevel := firstSuchLevel pq.order (neB pq) },
      none, some .ErrEmpty) := by
  have hcase : (pq.levels pq.curLevel).length = 0 :=
    length_zero_of_eq (expected_nil_levels hinv h pq.curLevel)
  have hallf : neB pq (firstSuchLevel pq.order (neB pq)) = false := by
    unfold neB
    rw [decide_eq_false_iff_not]
    rw [length_zero_of_eq (expected_nil_levels hinv h _)]
    omega
  have hgn := getNextItem_empty_none hcase hallf
  unfold Dequeue
  rw [hgn]

/-- Repeated `Dequeue` from an invariant-holding state produces exactly
the prefix of the expected sequence. -/
theorem drain_char {vals : Fin 256 → List Value} :
    ∀ (n : Nat) (pq : PriorityQueue), DrainInv pq vals →
    drain n pq = (expected pq vals).take n := by
  intro n
  induction n with
  | zero => intro pq _; rfl
  | succ n ih =>
    intro pq hinv
    by_cases hemp : expected pq vals = []
    · rw [hemp]
      have hD := dequeue_fails_of_expected_nil hinv hemp
      show drain (n + 1) pq = []
      unfold drain
      rw [hD]
    · obtain ⟨pq', item, hDq, hinv', hexp, _⟩ := DrainInv_dequeue_step hinv hemp
      show drain (n + 1) pq = _
      unfold drain
      rw [hDq]
      show item :: drain n pq' = (expected pq vals).take (n + 1)
      rw [ih pq' hinv', hexp, List.take_succ_cons]

/-! ### C1: the enqueue phase -/

theorem enqueueAll_eq_opsRun (ord : order) (reqs : List (Fin 256 × Value)) :
    enqueueAll ord reqs = opsRun ord (reqs.map (fun r => Op.enq true r.1 r.2)) := by
  unfold enqueueAll opsRun
  rw [List.foldl_map]
  rfl

theorem enqueueAll_Inv (ord : order) (reqs : List (Fin 256 × Value))
    (h : reqs.length < u64) : Inv reqs.length (enqueueAll ord reqs) := by
  rw [enqueueAll_eq_opsRun]
  have h2 := Inv_opsRun ord (reqs.map (fun r => Op.enq true r.1 r.2))
    (by rwa [List.length_map])
  rwa [List.length_map] at h2

theorem enqueueAll_order (ord : order) (reqs : List (Fin 256 × Value)) :
    (enqueueAll ord reqs).order = ord := by
  rw [enqueueAll_eq_opsRun, opsRun_order]

theorem valsAt_length_le (reqs : List (Fin 256 × Value)) (p : Fin 256) :
    (valsAt reqs p).length ≤ reqs.length := by
  unfold valsAt
  rw [List.length_map]
  exact List.length_filter_le _ reqs

theorem valsAt_append_one (reqs : List (Fin 256 × Value)) (r : Fin 256 × Value)
    (p : Fin 256) :
    valsAt (reqs ++ [r]) p = valsAt reqs p ++ (if r.1 = p then [r.2] else []) := by
  unfold valsAt
  rw [List.filter_append, List.map_append]
  congr 1
  by_cases hrp : r.1 = p
  · simp [List.filter_cons, hrp]
  · simp [List.filter_cons, hrp]

/-- After the enqueue phase: every head is 0, every tail equals the
number of values enqueued at that level, and the store holds exactly the
ids `1 … tail` of each level with the FIFO values. -/
theorem enqueueAll_levels_db (ord : order) :
    ∀ (reqs : List (Fin 256 × Value)), reqs.length < u64 →
    (∀ p, ((enqueueAll ord reqs).levels p).head = 0) ∧
    (∀ p, ((enqueueAll ord reqs).levels p).tail = (valsAt reqs p).length) ∧
    (∀ p id, (enqueueAll ord reqs).db p id =
      if 0 < id ∧ id ≤ (valsAt reqs p).length
      then some ((valsAt reqs p).getD (id - 1) []) else none) := by
  intro reqs
  induction reqs using List.reverseRecOn with
  | nil =>
    intro _
    refine ⟨fun p => rfl, fun p => rfl, fun p id => ?_⟩
    show (none : Option Value) = _
    rw [if_neg (by
      show ¬ (0 < id ∧ id ≤ (valsAt [] p).length)
      unfold valsAt
      simp
      omega)]
  | append_singleton reqs r ih =>
    intro hlen
    have hlen1 : reqs.length + 1 < u64 := by
      rw [List.length_append] at hlen
      simpa using hlen
    obtain ⟨ih1, ih2, ih3⟩ := ih (by omega)
    have hstep : enqueueAll ord (reqs ++ [r]) =
        (Enqueue (enqueueAll ord reqs) true r.1 r.2).1 := by
      unfold enqueueAll
      rw [List.foldl_append]
      rfl
    have hvlen : (valsAt reqs r.1).length ≤ reqs.length := valsAt_length_le reqs r.1
    have hadd : add64 ((enqueueAll ord reqs).levels r.1).tail 1 =
        ((enqueueAll ord reqs).levels r.1).tail + 1 := by
      refine add64_eq ?_
      rw [ih2 r.1]
      omega
    refine ⟨?_, ?_, ?_⟩
    · intro p
      rw [hstep, Enqueue_true_levels]
      by_cases hp : p = r.1
      · subst hp
        rw [Function.update_same]
        exact ih1 r.1
      · rw [Function.update_noteq hp]
        exact ih1 p
    · intro p
      rw [hstep, Enqueue_true_levels, valsAt_append_one]
      by_cases hp : p = r.1
      · subst hp
        rw [Function.update_same]
        show add64 ((enqueueAll ord reqs).levels r.1).tail 1 = _
        rw [hadd, ih2 r.1, if_pos rfl, List.length_append]
        rfl
      · rw [Function.update_noteq hp, if_neg (fun he => hp he.symm), List.append_nil]
        exact ih2 p
    · intro p id
      rw [hstep, Enqueue_true_db, valsAt_append_one]
      unfold dbPut
      by_cases hp : p = r.1
      · subst hp
        rw [if_pos rfl]
        by_cases hid : id = ((enqueueAll ord reqs).levels r.1).tail + 1
        · rw [if_pos ⟨rfl, by rw [hadd]; exact hid⟩]
          rw [ih2 r.1] at hid
          rw [if_pos (by
            rw [List.length_append]
            show 0 < id ∧ id ≤ (valsAt reqs r.1).length + 1
            omega)]
          rw [List.getD_append_right _ _ _ _ (by omega)]
          rw [show id - 1 - (valsAt reqs r.1).length = 0 by omega]
          rfl
        · rw [if_neg (by
            intro hh
            rw [hadd] at hh
            exact hid hh.2), ih3 r.1 id]
          rw [ih2 r.1] at hid
          by_cases hc : 0 < id ∧ id ≤ (valsAt reqs r.1).length
          · rw [if_pos hc, if_pos (by
              rw [List.length_append]
              show 0 < id ∧ id ≤ (valsAt reqs r.1).length + 1
              omega)]
            rw [List.getD_append _ _ _ _ (by omega)]
          · rw [if_neg hc, if_neg (by
              rw [List.length_append]
              show ¬ (0 < id ∧ id ≤ (valsAt reqs r.1).length + 1)
              omega)]
      · rw [if_neg (show ¬ (r.1 = p) from fun he => hp he.symm), List.append_nil,
          if_neg (fun hh => hp hh.1), ih3 p id]

theorem enqueueAll_DrainInv (ord : order) (reqs : List (Fin 256 × Value))
    (h : reqs.length < u64) :
    DrainInv (enqueueAll ord reqs) (valsAt reqs) := by
  obtain ⟨h1, h2, h3⟩ := enqueueAll_levels_db ord reqs h
  refine ⟨fun p => ⟨?_, h2 p, ?_⟩, ?_, (enqueueAll_Inv ord reqs h).2⟩
  · rw [h1 p]
    exact Nat.zero_le _
  · exact lt_of_le_of_lt (valsAt_length_le reqs p) h
  · intro p id
    rw [h3 p id, h1 p, h2 p]
    rfl

theorem sum_map_zero_of_not_mem {a : Fin 256} :
    ∀ (l : List (Fin 256)), a ∉ l →
    (l.map (fun p => if a = p then (1 : Nat) else 0)).sum = 0 := by
  intro l hl
  refine List.sum_eq_zero (fun x hx => ?_)
  obtain ⟨p, hp, rfl⟩ := List.mem_map.mp hx
  rw [if_neg (fun he => hl (by rw [he]; exact hp))]

theorem sum_indicator : ∀ (l : List (Fin 256)), l.Nodup → ∀ (a : Fin 256), a ∈ l →
    (l.map (fun p => if a = p then (1 : Nat) else 0)).sum = 1 := by
  intro l
  induction l with
  | nil => intro _ a ha; cases ha
  | cons q rest ih =>
    intro hnd a ha
    rw [List.map_cons, List.sum_cons]
    rcases List.mem_cons.mp ha with rfl | hmem
    · rw [if_pos rfl, sum_map_zero_of_not_mem rest (List.nodup_cons.mp hnd).1]
    · rw [if_neg (fun he => (List.nodup_cons.mp hnd).1 (by rw [← he]; exact hmem)),
        ih (List.nodup_cons.mp hnd).2 a hmem]

theorem sum_valsAt : ∀ (reqs : List (Fin 256 × Value)),
    ((List.finRange 256).map (fun p => (valsAt reqs p).length)).sum = reqs.length := by
  intro reqs
  induction reqs with
  | nil =>
    refine List.sum_eq_zero (fun x hx => ?_)
    obtain ⟨p, _, rfl⟩ := List.mem_map.mp hx
    rfl
  | cons r rest ih =>
    have hone : ∀ p, (valsAt (r :: rest) p).length =
        (if r.1 = p then 1 else 0) + (valsAt rest p).length := by
      intro p
      unfold valsAt
      rw [List.filter_cons]
      by_cases h : r.1 = p
      · simp [h]
        omega
      · simp [h]
    rw [List.map_congr_left (fun p _ => hone p), List.sum_map_add, sum_indicator
      (List.finRange 256) (List.nodup_finRange 256) r.1 (List.mem_finRange r.1), ih,
      List.length_cons]
    omega

theorem LengthNat_enqueueAll (ord : order) (reqs : List (Fin 256 × Value))
    (h : reqs.length < u64) :
    LengthNat (enqueueAll ord reqs) = reqs.length := by
  obtain ⟨h1, h2, _⟩ := enqueueAll_levels_db ord reqs h
  unfold LengthNat
  rw [List.map_congr_left (fun p _ => by rw [h1 p, h2 p, Nat.sub_zero]), sum_valsAt]

/-- **C1.** From a freshly opened queue, after any sequence of
successful `Enqueue(priority, value)` calls (fewer than `2^64`, so ids
cannot wrap), repeated `Dequeue()` returns items in weakly-importance-
sorted order of priority (strict priority order of the active mode),
and, once every item has been drained, the values seen at each priority
level are exactly that level's enqueued values in FIFO order. -/
theorem C1_strict_priority_fifo (ord : order) (reqs : List (Fin 256 × Value)) (n : Nat)
    (hlen : reqs.length < u64) :
    (drain n (enqueueAll ord reqs)).Pairwise
      (fun a b => moreImpEq ord a.Priority b.Priority) ∧
    (reqs.length ≤ n → ∀ p,
      ((drain n (enqueueAll ord reqs)).filter
        (fun it => decide (it.Priority = p))).map (·.Value) =
      (reqs.filter (fun r2 => decide (r2.1 = p))).map (·.2)) := by
  have hinv := enqueueAll_DrainInv ord reqs hlen
  have hord := enqueueAll_order ord reqs
  obtain ⟨h1, h2, _⟩ := enqueueAll_levels_db ord reqs hlen
  rw [drain_char n _ hinv]
  constructor
  · have hp := expected_pairwise (enqueueAll ord reqs) (valsAt reqs)
    rw [hord] at hp
    exact hp.sublist (List.take_sublist n _)
  · intro hn p
    have hfull : (expected (enqueueAll ord reqs) (valsAt reqs)).take n =
        expected (enqueueAll ord reqs) (valsAt reqs) := by
      refine List.take_of_length_le ?_
      rw [expected_length, LengthNat_enqueueAll ord reqs hlen]
      exact hn
    rw [hfull, expected_filter, pending_values (h1 p) (h2 p)]
    rfl

/-- Witness for C1: the spec's Scenario A (ascending mode,
`Enqueue(5,a)`, `Enqueue(1,b)`, `Enqueue(5,c)` then three dequeues). -/
theorem C1_strict_priority_fifo_witness :
    (drain 3 (enqueueAll order.ASC [(5, [97]), (1, [98]), (5, [99])])).Pairwise
      (fun a b => moreImpEq order.ASC a.Priority b.Priority) ∧
    ((drain 3 (enqueueAll order.ASC [(5, [97]), (1, [98]), (5, [99])])).filter
      (fun it => decide (it.Priority = 5))).map (·.Value) =
      ([(5, [97]), (1, [98]), (5, [99])].filter
        (fun r2 => decide (r2.1 = (5 : Fin 256)))).map (·.2) :=
  ⟨(C1_strict_priority_fifo order.ASC [(5, [97]), (1, [98]), (5, [99])] 3 (by decide)).1,
   (C1_strict_priority_fifo order.ASC [(5, [97]), (1, [98]), (5, [99])] 3 (by decide)).2
     (by decide) 5⟩

/-! ### C3, C4: the offset search -/

theorem findOffsetGo_cons (pq : PriorityQueue) (qual : Fin 256 → Fin 256 → Bool)
    (offset : Nat) (i : Fin 256) (rest : List (Fin 256)) (len : Nat) (prio : Fin 256) :
    findOffsetGo pq qual offset (i :: rest) len prio =
      if qual i prio && decide (0 < (pq.levels i).length) then
        if offset ≤ add64 len (sub64 (pq.levels i).length 1) then
          getItemByPriorityID pq i (add64 (sub64 offset len) 1)
        else
          findOffsetGo pq qual offset rest
            (add64 len (add64 (sub64 (pq.levels i).length 1) 1)) i
      else findOffsetGo pq qual offset rest len prio := rfl

theorem findOffsetGo_skip (pq : PriorityQueue) (qual : Fin 256 → Fin 256 → Bool)
    (offset : Nat) :
    ∀ (l1 l2 : List (Fin 256)) (len : Nat) (prio : Fin 256),
    (∀ i ∈ l1, (qual i prio && decide (0 < (pq.levels i).length)) = false) →
    findOffsetGo pq qual offset (l1 ++ l2) len prio =
      findOffsetGo pq qual offset l2 len prio := by
  intro l1
  induction l1 with
  | nil => intro l2 len prio _; rfl
  | cons i r1 ih =>
    intro l2 len prio h
    rw [List.cons_append, findOffsetGo_cons,
      if_neg (by rw [h i (List.mem_cons_self i r1)]; exact Bool.false_ne_true)]
    exact ih l2 len prio (fun j hj => h j (List.mem_cons_of_mem i hj))

/-- When the offset lies beyond everything the scan can reach, the scan
reports `ErrOutOfBounds`. -/
theorem findOffsetGo_oob (pq : PriorityQueue) (qual : Fin 256 → Fin 256 → Bool)
    (offset : Nat)
    (hb : ∀ p, (pq.levels p).head ≤ (pq.levels p).tail ∧ (pq.levels p).tail < u64) :
    ∀ (l : List (Fin 256)) (len : Nat) (prio : Fin 256),
    l.Pairwise (fun i j => qual j i = true) →
    (∀ i ∈ l, qual i prio = true) →
    len + (l.map (fun i => (pq.levels i).length)).sum < u64 →
    len + (l.map (fun i => (pq.levels i).length)).sum ≤ offset →
    findOffsetGo pq qual offset l len prio = .error .ErrOutOfBounds := by
  intro l
  induction l with
  | nil => intro len prio _ _ _ _; rfl
  | cons i rest ih =>
    intro len prio hpw hq hu hoff
    rw [List.map_cons, List.sum_cons] at hu hoff
    rw [findOffsetGo_cons]
    by_cases hilen : 0 < (pq.levels i).length
    · rw [if_pos (by rw [hq i (List.mem_cons_self i rest)]; simp [hilen])]
      have hlu : (pq.levels i).length < u64 := by
        rw [length_eq (hb i).1 (hb i).2]
        have := (hb i).2
        omega
      have hsub : sub64 (pq.levels i).length 1 = (pq.levels i).length - 1 :=
        sub64_eq (by omega) hlu
      have haddin : add64 len (sub64 (pq.levels i).length 1) =
          len + ((pq.levels i).length - 1) := by
        rw [hsub]
        exact add64_eq (by omega)
      rw [haddin, if_neg (by omega)]
      have hadd2 : add64 len (add64 (sub64 (pq.levels i).length 1) 1) =
          len + (pq.levels i).length := by
        rw [hsub, add64_eq (show (pq.levels i).length - 1 + 1 < u64 by omega)]
        rw [add64_eq (by omega)]
        omega
      rw [hadd2]
      exact ih (len + (pq.levels i).length) i (List.pairwise_cons.mp hpw).2
        (fun j hj => (List.pairwise_cons.mp hpw).1 j hj) (by omega) (by omega)
    · rw [if_neg (by simp [hilen])]
      have hzero : (pq.levels i).length = 0 := by omega
      rw [hzero] at hu hoff
      exact ih len prio (List.pairwise_cons.mp hpw).2
        (fun j hj => hq j (List.mem_cons_of_mem i hj)) (by omega) (by omega)

/-- When the offset falls inside the pending items reachable by the
scan, and every level the scan can resolve into has `head = 0`, the
scan returns exactly the item the serving order predicts. -/
theorem findOffsetGo_hit (pq : PriorityQueue) (vals : Fin 256 → List Value)
    (qual : Fin 256 → Fin 256 → Bool) (offset : Nat)
    (hb : ∀ p, (pq.levels p).head ≤ (pq.levels p).tail ∧ (pq.levels p).tail < u64)
    (hdb : ∀ p id, pq.db p id =
        if (pq.levels p).head < id ∧ id ≤ (pq.levels p).tail
        then some (valAt vals p id) else none) :
    ∀ (l : List (Fin 256)) (len : Nat) (prio : Fin 256) (it : PriorityItem),
    l.Pairwise (fun i j => qual j i = true) →
    (∀ i ∈ l, qual i prio = true) →
    (∀ i ∈ l, 0 < (pq.levels i).length → (pq.levels i).head = 0) →
    len + (l.map (fun i => (pq.levels i).length)).sum < u64 →
    len ≤ offset →
    (l.flatMap (pending pq vals))[offset - len]? = some it →
    findOffsetGo pq qual offset l len prio = .ok it := by
  intro l
  induction l with
  | nil => intro len prio it _ _ _ _ _ hget; simp at hget
  | cons i rest ih =>
    intro len prio it hpw hq h0 hu hlen hget
    rw [List.map_cons, List.sum_cons] at hu
    rw [List.flatMap_cons] at hget
    rw [findOffsetGo_cons]
    by_cases hilen : 0 < (pq.levels i).length
    · rw [if_pos (by rw [hq i (List.mem_cons_self i rest)]; simp [hilen])]
      have hh0 : (pq.levels i).head = 0 := h0 i (List.mem_cons_self i rest) hilen
      have hleq : (pq.levels i).length = (pq.levels i).tail - (pq.levels i).head :=
        length_eq (hb i).1 (hb i).2
      have hlu : (pq.levels i).length < u64 := by
        have := (hb i).2
        omega
      have hpl : (pending pq vals i).length = (pq.levels i).length := by
        rw [pending_length, hleq]
      have hsub : sub64 (pq.levels i).length 1 = (pq.levels i).length - 1 :=
        sub64_eq (by omega) hlu
      have haddin : add64 len (sub64 (pq.levels i).length 1) =
          len + ((pq.levels i).length - 1) := by
        rw [hsub]
        exact add64_eq (by omega)
      by_cases hcase : offset ≤ len + ((pq.levels i).length - 1)
      · rw [haddin, if_pos hcase]
        have hk : offset - len < (pq.levels i).length := by omega
        rw [List.getElem?_append_left (by rw [hpl]; exact hk)] at hget
        have hrange : (List.range' ((pq.levels i).head + 1)
            ((pq.levels i).tail - (pq.levels i).head))[offset - len]? =
            some ((pq.levels i).head + 1 + (offset - len)) := by
          rw [List.getElem?_eq_getElem (by
            rw [List.length_range' _ 1 _]
            omega)]
          simp [List.getElem_range']
        have hpg : (pending pq vals i)[offset - len]? =
            some ⟨(offset - len) + 1, i, valAt vals i ((offset - len) + 1)⟩ := by
          unfold pending
          rw [List.getElem?_map, hrange]
          rw [show (pq.levels i).head + 1 + (offset - len) = (offset - len) + 1 by omega]
          rfl
        have hadd3 : add64 (sub64 offset len) 1 = (offset - len) + 1 := by
          rw [sub64_eq hlen (show offset < u64 by omega)]
          exact add64_eq (by omega)
        rw [hadd3]
        have hgot : getItemByPriorityID pq i ((offset - len) + 1) =
            .ok ⟨(offset - len) + 1, i, valAt vals i ((offset - len) + 1)⟩ := by
          unfold getItemByPriorityID
          rw [if_neg (by omega),
            if_neg (by
              push_neg
              rw [hh0]
              constructor
              · omega
              · omega),
            hdb i ((offset - len) + 1),
            if_pos (by rw [hh0]; constructor <;> omega)]
        rw [hgot]
        rw [hpg] at hget
        obtain rfl : (⟨(offset - len) + 1, i, valAt vals i ((offset - len) + 1)⟩ :
            PriorityItem) = it := (Option.some.injEq ..).mp hget
        rfl
      · rw [haddin, if_neg hcase]
        have hadd2 : add64 len (add64 (sub64 (pq.levels i).length 1) 1) =
            len + (pq.levels i).length := by
          rw [hsub, add64_eq (show (pq.levels i).length - 1 + 1 < u64 by omega)]
          rw [add64_eq (by omega)]
          omega
        rw [hadd2]
        refine ih (len + (pq.levels i).length) i it (List.pairwise_cons.mp hpw).2
          (fun j hj => (List.pairwise_cons.mp hpw).1 j hj)
          (fun j hj hl => h0 j (List.mem_cons_of_mem i hj) hl) (by omega) (by omega) ?_
        rw [List.getElem?_append_right (by rw [hpl]; omega)] at hget
        rw [show offset - len - (pending pq vals i).length =
            offset - (len + (pq.levels i).length) by rw [hpl]; omega] at hget
        exact hget
    · rw [if_neg (by simp [hilen])]
      have hzero : (pq.levels i).length = 0 := by omega
      have hpnil : pending pq vals i = [] := by
        refine pending_nil_of_empty ?_
        have h1 := (hb i).1
        rw [length_eq (hb i).1 (hb i).2] at hzero
        omega
      rw [hpnil, List.nil_append] at hget
      rw [hzero] at hu
      exact ih len prio it (List.pairwise_cons.mp hpw).2
        (fun j hj => hq j (List.mem_cons_of_mem i hj))
        (fun j hj hl => h0 j (List.mem_cons_of_mem i hj) hl) (by omega) hlen hget

/-- A `foldl` of `add64` agrees with the mathematical sum while the sum
stays below `2^64`. -/
theorem foldl_add64_eq (f : Fin 256 → Nat) :
    ∀ (l : List (Fin 256)) (a : Nat), a + (l.map f).sum < u64 →
    l.foldl (fun acc p => add64 acc (f p)) a = a + (l.map f).sum := by
  intro l
  induction l with
  | nil => intro a _; simp
  | cons i rest ih =>
    intro a h
    rw [List.map_cons, List.sum_cons] at h ⊢
    rw [List.foldl_cons, add64_eq (show a + f i < u64 by omega), ih (a + f i) (by omega)]
    omega

/-- While the total number of pending items is below `2^64`, the code's
uint64 `Length()` equals the overflow-free count. -/
theorem Length_eq_LengthNat (pq : PriorityQueue)
    (hb : ∀ p, (pq.levels p).head ≤ (pq.levels p).tail ∧ (pq.levels p).tail < u64)
    (hu : LengthNat pq < u64) :
    Length pq = LengthNat pq := by
  have hmap : (List.finRange 256).map (fun p => (pq.levels p).length) =
      (List.finRange 256).map (fun p => (pq.levels p).tail - (pq.levels p).head) :=
    List.map_congr_left (fun p _ => length_eq (hb p).1 (hb p).2)
  have h2 : ((List.finRange 256).map (fun p => (pq.levels p).length)).sum = LengthNat pq := by
    rw [hmap]; rfl
  unfold Length
  rw [foldl_add64_eq (fun p => (pq.levels p).length) (List.finRange 256) 0
    (by rw [h2]; omega), h2]
  omega

/-- The level lengths summed in serving order give the overflow-free
total count. -/
theorem sum_lengths_servingList (pq : PriorityQueue)
    (hb : ∀ p, (pq.levels p).head ≤ (pq.levels p).tail ∧ (pq.levels p).tail < u64) :
    ((servingList pq.order).map (fun i => (pq.levels i).length)).sum = LengthNat pq := by
  have hmap : ∀ L : List (Fin 256), L.map (fun i => (pq.levels i).length) =
      L.map (fun p => (pq.levels p).tail - (pq.levels p).head) :=
    fun L => List.map_congr_left (fun p _ => length_eq (hb p).1 (hb p).2)
  unfold LengthNat
  cases ho : pq.order with
  | ASC => rw [show servingList order.ASC = List.finRange 256 from rfl, hmap]
  | DESC =>
    rw [show servingList order.DESC = (List.finRange 256).reverse from rfl, hmap,
      List.map_reverse]
    exact (List.reverse_perm _).sum_eq

theorem level_sub_le_LengthNat (pq : PriorityQueue) (p : Fin 256) :
    (pq.levels p).tail - (pq.levels p).head ≤ LengthNat pq := by
  unfold LengthNat
  exact List.single_le_sum (fun x _ => Nat.zero_le x) _
    (List.mem_map.mpr ⟨p, List.mem_finRange p, rfl⟩)

theorem qualOf_refl (ord : order) (c : Fin 256) : qualOf ord c c = true := by
  cases ord with
  | ASC => exact decide_eq_true (le_refl c)
  | DESC => exact decide_eq_true (le_refl c)

theorem qualOf_of_moreImp {ord : order} {p q : Fin 256} (h : moreImp ord p q) :
    qualOf ord q p = true := by
  cases ord with
  | ASC =>
    have h2 : p < q := h
    exact decide_eq_true (le_of_lt h2)
  | DESC =>
    have h2 : q < p := h
    exact decide_eq_true (le_of_lt h2)

/-- When the fast-path test fails, `PeekByOffset` is the mode's offset
scan across all levels starting from the cursor. -/
theorem PeekByOffset_slow (pq : PriorityQueue) (offset : Nat)
    (hcond : ¬ offset ≤ sub64 (pq.levels pq.curLevel).length 1) :
    PeekByOffset pq offset =
      findOffsetGo pq (qualOf pq.order) offset (servingList pq.order) 0 pq.curLevel := by
  unfold PeekByOffset
  rw [if_neg hcond]
  cases ho : pq.order with
  | ASC => rfl
  | DESC => rfl

/-- Under the cursor invariant, the offset scan over the full serving
list reduces to the scan over the cursor's level followed by the
strictly less important levels, and that suffix carries all pending
items and the whole count. -/
theorem findOffset_slow (pq : PriorityQueue) (vals : Fin 256 → List Value) (offset : Nat)
    (hcur : CursorInv pq)
    (hb : ∀ p, (pq.levels p).head ≤ (pq.levels p).tail ∧ (pq.levels p).tail < u64) :
    ∃ L2 : List (Fin 256),
      findOffsetGo pq (qualOf pq.order) offset (servingList pq.order) 0 pq.curLevel =
        findOffsetGo pq (qualOf pq.order) offset (pq.curLevel :: L2) 0 pq.curLevel ∧
      (pq.curLevel :: L2).Pairwise (fun i j => qualOf pq.order j i = true) ∧
      (∀ i ∈ pq.curLevel :: L2, qualOf pq.order i pq.curLevel = true) ∧
      (∀ i ∈ L2, i ≠ pq.curLevel) ∧
      expected pq vals = (pq.curLevel :: L2).flatMap (pending pq vals) ∧
      ((pq.curLevel :: L2).map (fun i => (pq.levels i).length)).sum = LengthNat pq := by
  obtain ⟨L1, L2, hsplit, hL1, hL2⟩ :=
    pairwise_split (servingList pq.order) pq.curLevel (servingList_pairwise pq.order)
      (mem_servingList pq.order pq.curLevel)
  have hlen0 : ∀ q ∈ L1, (pq.levels q).length = 0 :=
    fun q hq => length_zero_of_eq (hcur q (hL1 q hq))
  have hskipc : ∀ i ∈ L1,
      (qualOf pq.order i pq.curLevel && decide (0 < (pq.levels i).length)) = false := by
    intro i hi
    rw [hlen0 i hi]
    simp
  have hpwcl : (pq.curLevel :: L2).Pairwise (moreImp pq.order) := by
    have hall := servingList_pairwise pq.order
    rw [hsplit] at hall
    exact hall.sublist (List.sublist_append_right L1 _)
  refine ⟨L2, ?_, ?_, ?_, ?_, ?_, ?_⟩
  · rw [hsplit]
    exact findOffsetGo_skip pq (qualOf pq.order) offset L1 (pq.curLevel :: L2) 0
      pq.curLevel hskipc
  · exact hpwcl.imp (fun h => qualOf_of_moreImp h)
  · intro i hi
    rcases List.mem_cons.mp hi with rfl | hi2
    · exact qualOf_refl pq.order pq.curLevel
    · exact qualOf_of_moreImp (hL2 i hi2)
  · intro i hi he
    have h2 := hL2 i hi
    rw [he] at h2
    exact moreImp_irrefl pq.order pq.curLevel h2
  · unfold expected
    rw [hsplit, List.flatMap_append,
      List.flatMap_eq_nil_iff.mpr (fun q hq => pending_nil_of_empty (hcur q (hL1 q hq))),
      List.nil_append]
  · have hsum := sum_lengths_servingList pq hb
    rw [hsplit, List.map_append, List.sum_append] at hsum
    have hz : (L1.map (fun i => (pq.levels i).length)).sum = 0 :=
      List.sum_eq_zero (fun x hx => by
        obtain ⟨q, hq, rfl⟩ := List.mem_map.mp hx
        exact hlen0 q hq)
    omega

set_option maxRecDepth 4000 in
/-- Claim C4 fails as stated: in the reachable ascending state
`offC4cexPQ` — current level 5 drained by a `Dequeue`, level 7 still
holding one item — the total `Length()` is 1, yet `PeekByOffset 1`
(offset ≥ length) returns `ErrEmpty` rather than `ErrOutOfBounds`: the
fast-path bound `length()-1` (pqueue.go line 166) underflows to
`2^64 - 1` on the empty current level, so the fast path is taken and
`getItemByPriorityID` reports the level empty. -/
theorem C4_peek_by_offset_cex :
    Length offC4cexPQ = 1 ∧
    PeekByOffset offC4cexPQ 1 = .error GoqueError.ErrEmpty := by
  constructor
  · decide
  · decide

/-- Claim C4 amended: when the pending total and the offset are below
`2^64`, `PeekByOffset` with `offset ≥ Length()` always fails, but the
error depends on the current level: `ErrOutOfBounds` when the current
level holds items, and `ErrEmpty` when it is empty (in particular on an
empty queue, and when the current level is empty while other levels
hold items), because `length()-1` underflows on the empty current level
and the fast path then reports `ErrEmpty`. -/
theorem C4_peek_by_offset_oob_amended (pq : PriorityQueue) (vals : Fin 256 → List Value)
    (offset : Nat) (hinv : DrainInv pq vals)
    (hu : LengthNat pq < u64) (hoffu : offset < u64)
    (hoff : Length pq ≤ offset) :
    PeekByOffset pq offset =
      .error (if (pq.levels pq.curLevel).length = 0 then GoqueError.ErrEmpty
        else GoqueError.ErrOutOfBounds) := by
  obtain ⟨hb0, hdb, hcinv⟩ := hinv
  have hb : ∀ p, (pq.levels p).head ≤ (pq.levels p).tail ∧ (pq.levels p).tail < u64 :=
    fun p => ⟨(hb0 p).1, by rw [(hb0 p).2.1]; exact (hb0 p).2.2⟩
  rw [Length_eq_LengthNat pq hb hu] at hoff
  by_cases hc0 : (pq.levels pq.curLevel).length = 0
  · rw [if_pos hc0]
    unfold PeekByOffset
    have hsub01 : sub64 (pq.levels pq.curLevel).length 1 = u64 - 1 := by
      rw [hc0]
      unfold sub64
      rw [Nat.zero_add]
      exact Nat.mod_eq_of_lt (by have := u64_pos; omega)
    rw [hsub01, if_pos (by omega)]
    unfold getItemByPriorityID
    rw [if_pos hc0]
  · rw [if_neg hc0]
    have hlc : (pq.levels pq.curLevel).length ≤ LengthNat pq := by
      rw [length_eq (hb pq.curLevel).1 (hb pq.curLevel).2]
      exact level_sub_le_LengthNat pq pq.curLevel
    have hlcu : (pq.levels pq.curLevel).length < u64 := by
      rw [length_eq (hb pq.curLevel).1 (hb pq.curLevel).2]
      have := (hb pq.curLevel).2
      omega
    have hsub1 : sub64 (pq.levels pq.curLevel).length 1 =
        (pq.levels pq.curLevel).length - 1 := sub64_eq (by omega) hlcu
    rw [PeekByOffset_slow pq offset (by rw [hsub1]; omega)]
    obtain ⟨L2, hgo, hpw, hq, hne, hexp, hsum⟩ := findOffset_slow pq vals offset hcinv hb
    rw [hgo]
    exact findOffsetGo_oob pq (qualOf pq.order) offset hb (pq.curLevel :: L2) 0
      pq.curLevel hpw hq (by rw [hsum]; omega) (by rw [hsum]; omega)

set_option maxRecDepth 4000 in
/-- Witness for the amended C4: one item at level 7 of an ascending
queue; `PeekByOffset 1` with `Length() = 1` fails with `ErrOutOfBounds`
(the current level 7 is nonempty). -/
theorem C4_peek_by_offset_oob_amended_witness :
    PeekByOffset (enqueueAll order.ASC [(7, [42])]) 1 =
      .error (if ((enqueueAll order.ASC [(7, [42])]).levels
          (enqueueAll order.ASC [(7, [42])]).curLevel).length = 0
        then GoqueError.ErrEmpty else GoqueError.ErrOutOfBounds) :=
  C4_peek_by_offset_oob_amended (enqueueAll order.ASC [(7, [42])]) (valsAt [(7, [42])]) 1
    (enqueueAll_DrainInv order.ASC [(7, [42])] (by decide))
    (by decide) (by decide) (by decide)

set_option maxRecDepth 4000 in
/-- The store of `offCexPQ` holds exactly the ids in `(head, tail]` of
each level, with the FIFO values `offCexVals`. -/
theorem offCexPQ_db (p : Fin 256) (id : Nat) :
    offCexPQ.db p id =
      if (offCexPQ.levels p).head < id ∧ id ≤ (offCexPQ.levels p).tail
      then some (valAt offCexVals p id) else none := by
  have hlev : offCexPQ.levels p =
      if p = 1 then ⟨0, 1⟩ else if p = 2 then ⟨1, 2⟩ else ⟨0, 0⟩ := by
    revert p
    decide
  have hdb : offCexPQ.db p id =
      (if p = 2 ∧ id = 1 then none
       else if p = 2 ∧ id = 2 then some [12]
       else if p = 2 ∧ id = 1 then some [11]
       else if p = 1 ∧ id = 1 then some [10] else none) := rfl
  rw [hdb, hlev]
  by_cases hp1 : p = 1
  · subst hp1
    by_cases h1 : id = 1
    · subst h1; decide
    · by_cases h2 : id = 2
      · subst h2; decide
      · rw [if_neg (fun h => h1 h.2), if_neg (fun h => h2 h.2),
          if_neg (fun h => h1 h.2), if_neg (fun h => h1 h.2), if_pos rfl,
          if_neg (show ¬ ((priorityLevel.mk 0 1).head < id ∧
            id ≤ (priorityLevel.mk 0 1).tail) by
              show ¬ (0 < id ∧ id ≤ 1)
              omega)]
  · by_cases hp2 : p = 2
    · subst hp2
      by_cases h1 : id = 1
      · subst h1; decide
      · by_cases h2 : id = 2
        · subst h2; decide
        · rw [if_neg (fun h => h1 h.2), if_neg (fun h => h2 h.2),
            if_neg (fun h => h1 h.2), if_neg (fun h => h1 h.2)]
          rw [if_neg hp1, if_pos rfl,
            if_neg (show ¬ ((priorityLevel.mk 1 2).head < id ∧
              id ≤ (priorityLevel.mk 1 2).tail) by
                show ¬ (1 < id ∧ id ≤ 2)
                omega)]
    · rw [if_neg (fun h => hp2 h.1), if_neg (fun h => hp2 h.1),
        if_neg (fun h => hp2 h.1), if_neg (fun h => hp1 h.1),
        if_neg hp1, if_neg hp2,
        if_neg (show ¬ ((priorityLevel.mk 0 0).head < id ∧
          id ≤ (priorityLevel.mk 0 0).tail) by
            show ¬ (0 < id ∧ id ≤ 0)
            omega)]

set_option maxRecDepth 4000 in
theorem offCexPQ_DrainInv : DrainInv offCexPQ offCexVals := by
  refine ⟨by decide, offCexPQ_db, ?_⟩
  unfold CursorInv
  decide

set_option maxRecDepth 4000 in
/-- Claim C3 fails as stated: in the reachable ascending state
`offCexPQ` (level 1 holds `[10]`, level 2 has `head = 1` after a
`DequeueByPriority(2)` and still holds `[12]`) the queue length is 2
and the two subsequent dequeues return values `[10]` then `[12]`, yet
`PeekByOffset 1` returns `ErrOutOfBounds` instead of the item with
value `[12]`: `findOffsetAsc` computes the candidate id as
`offset - length + 1` (pqueue.go line 268), ignoring the level's
`head`, so on level 2 it probes the already-dequeued id 1. -/
theorem C3_peek_by_offset_cex :
    Length offCexPQ = 2 ∧
    (drain 2 offCexPQ).map PriorityItem.Value = [[10], [12]] ∧
    PeekByOffset offCexPQ 1 = .error GoqueError.ErrOutOfBounds := by
  refine ⟨by decide, ?_, by decide⟩
  rw [drain_char 2 offCexPQ offCexPQ_DrainInv]
  decide

/-- Claim C3 amended: suppose the counters, store and cursor are
coherent (`DrainInv`), the pending total is below `2^64`, the current
level is nonempty, and every other nonempty level still has
`head = 0` (has not been dequeued from): then for every
`offset < Length()`, `PeekByOffset offset` returns exactly the item the
`offset`-th subsequent `Dequeue()` (0-based) would return.  (The
source's `PeekByOffset` only reads the state — the embedding returns no
state at all — so the no-mutation half of the claim is kept.)  The
`head = 0` restriction is forced: `findOffsetAsc`/`findOffsetDesc`
compute the candidate id as `offset - length + 1`, ignoring `head`. -/
theorem C3_peek_by_offset_amended (pq : PriorityQueue) (vals : Fin 256 → List Value)
    (offset : Nat) (hinv : DrainInv pq vals)
    (hu : LengthNat pq < u64)
    (hcur : 0 < (pq.levels pq.curLevel).length)
    (h0 : ∀ p, p ≠ pq.curLevel → 0 < (pq.levels p).length → (pq.levels p).head = 0)
    (hoff : offset < Length pq) :
    ∃ it, PeekByOffset pq offset = .ok it ∧
      (drain (Length pq) pq)[offset]? = some it := by
  obtain ⟨hb0, hdb, hcinv⟩ := hinv
  have hb : ∀ p, (pq.levels p).head ≤ (pq.levels p).tail ∧ (pq.levels p).tail < u64 :=
    fun p => ⟨(hb0 p).1, by rw [(hb0 p).2.1]; exact (hb0 p).2.2⟩
  have hLL : Length pq = LengthNat pq := Length_eq_LengthNat pq hb hu
  rw [hLL] at hoff ⊢
  have hexplen : offset < (expected pq vals).length := by
    rw [expected_length]
    exact hoff
  have hdrain : drain (LengthNat pq) pq = expected pq vals := by
    rw [drain_char (LengthNat pq) pq ⟨hb0, hdb, hcinv⟩]
    exact List.take_of_length_le (by rw [expected_length])
  obtain ⟨it, hit⟩ : ∃ x, (expected pq vals)[offset]? = some x :=
    ⟨(expected pq vals).get ⟨offset, hexplen⟩, List.getElem?_eq_getElem hexplen⟩
  refine ⟨it, ?_, by rw [hdrain]; exact hit⟩
  obtain ⟨L2, hgo, hpw, hq, hne, hexp, hsum⟩ := findOffset_slow pq vals offset hcinv hb
  have hlenc : (pq.levels pq.curLevel).length =
      (pq.levels pq.curLevel).tail - (pq.levels pq.curLevel).head :=
    length_eq (hb pq.curLevel).1 (hb pq.curLevel).2
  have htu := (hb pq.curLevel).2
  have hlencu : (pq.levels pq.curLevel).length < u64 := by rw [hlenc]; omega
  have hsub1 : sub64 (pq.levels pq.curLevel).length 1 =
      (pq.levels pq.curLevel).length - 1 := sub64_eq (by omega) hlencu
  have hpendc : (pending pq vals pq.curLevel).length = (pq.levels pq.curLevel).length := by
    rw [pending_length, hlenc]
  have hexp2 : expected pq vals =
      pending pq vals pq.curLevel ++ L2.flatMap (pending pq vals) := by
    rw [hexp, List.flatMap_cons]
  have hsum2 : (pq.levels pq.curLevel).length +
      (L2.map (fun i => (pq.levels i).length)).sum = LengthNat pq := by
    rw [← hsum, List.map_cons, List.sum_cons]
  by_cases hAB : offset < (pq.levels pq.curLevel).length
  · have hAB2 : offset <
        (pq.levels pq.curLevel).tail - (pq.levels pq.curLevel).head := by
      rw [← hlenc]
      exact hAB
    have hrange : (List.range' ((pq.levels pq.curLevel).head + 1)
        ((pq.levels pq.curLevel).tail - (pq.levels pq.curLevel).head))[offset]? =
        some ((pq.levels pq.curLevel).head + 1 + offset) := by
      rw [List.getElem?_eq_getElem (by
        rw [List.length_range' _ 1 _]
        omega)]
      simp [List.getElem_range']
    have hitsome : (expected pq vals)[offset]? =
        some ⟨(pq.levels pq.curLevel).head + offset + 1, pq.curLevel,
          valAt vals pq.curLevel ((pq.levels pq.curLevel).head + offset + 1)⟩ := by
      rw [hexp2, List.getElem?_append_left (by rw [hpendc]; exact hAB)]
      unfold pending
      rw [List.getElem?_map, hrange,
        show (pq.levels pq.curLevel).head + 1 + offset =
          (pq.levels pq.curLevel).head + offset + 1 by omega]
      rfl
    obtain rfl := Option.some.inj (hit.symm.trans hitsome)
    unfold PeekByOffset
    rw [hsub1, if_pos (by omega)]
    rw [add64_eq (show (pq.levels pq.curLevel).head + offset < u64 by omega)]
    rw [add64_eq (show (pq.levels pq.curLevel).head + offset + 1 < u64 by omega)]
    unfold getItemByPriorityID
    rw [if_neg (by omega), if_neg (by omega),
      hdb pq.curLevel ((pq.levels pq.curLevel).head + offset + 1),
      if_pos ⟨by omega, by omega⟩]
  · push_neg at hAB
    rw [PeekByOffset_slow pq offset (by rw [hsub1]; omega), hgo, findOffsetGo_cons,
      if_pos (show (qualOf pq.order pq.curLevel pq.curLevel &&
          decide (0 < (pq.levels pq.curLevel).length)) = true by
        rw [qualOf_refl pq.order pq.curLevel, Bool.true_and]
        exact decide_eq_true hcur),
      hsub1]
    rw [add64_eq (show 0 + ((pq.levels pq.curLevel).length - 1) < u64 by omega)]
    rw [if_neg (by omega)]
    rw [add64_eq (show (pq.levels pq.curLevel).length - 1 + 1 < u64 by omega)]
    rw [show (pq.levels pq.curLevel).length - 1 + 1 =
      (pq.levels pq.curLevel).length by omega]
    rw [add64_eq (show 0 + (pq.levels pq.curLevel).length < u64 by omega)]
    rw [show 0 + (pq.levels pq.curLevel).length = (pq.levels pq.curLevel).length by omega]
    have hget : (L2.flatMap (pending pq vals))[offset -
        (pq.levels pq.curLevel).length]? = some it := by
      have h1 := hit
      rw [hexp2, List.getElem?_append_right (by rw [hpendc]; omega)] at h1
      rw [hpendc] at h1
      exact h1
    exact findOffsetGo_hit pq vals (qualOf pq.order) offset hb hdb L2
      (pq.levels pq.curLevel).length pq.curLevel it
      (List.pairwise_cons.mp hpw).2
      (fun i hi => hq i (List.mem_cons_of_mem _ hi))
      (fun i hi hl => h0 i (hne i hi) hl)
      (by omega) hAB hget

set_option maxRecDepth 4000 in
/-- Witness for the amended C3: ascending queue holding `[10]` at level
1 and `[11]` at level 2, all heads 0; `PeekByOffset 1` returns the item
the second dequeue returns. -/
theorem C3_peek_by_offset_amended_witness :
    ∃ it, PeekByOffset (enqueueAll order.ASC [(1, [10]), (2, [11])]) 1 = .ok it ∧
      (drain (Length (enqueueAll order.ASC [(1, [10]), (2, [11])]))
        (enqueueAll order.ASC [(1, [10]), (2, [11])]))[1]? = some it :=
  C3_peek_by_offset_amended (enqueueAll order.ASC [(1, [10]), (2, [11])])
    (valsAt [(1, [10]), (2, [11])]) 1
    (enqueueAll_DrainInv order.ASC [(1, [10]), (2, [11])] (by decide))
    (by decide) (by decide) (by decide) (by decide)

end Goque
